import Mathlib

/-!
# Verification of the secondary-index builder (`src/secondary/builder.cpp`, `src/util/util.h`)

Shallow embedding of the builder's core algorithms:

* the per-attribute run generator (`RawWriter_T`: `Flush` sorts each in-memory run
  by `(value, row_id)` and appends it to a temp file),
* the k-way merge over runs (`SIWriter_T::Process` with a min-priority-queue
  ordered by `PQGreater`),
* the block encoder (`RowWriter_t`: `AddValue` / `NextValue` / `FlushValue` /
  `FlushBlock`), including posting-layout selection (`ROW` / `ROW_BLOCK` /
  `ROW_BLOCKS_LIST`) and the byte-level serialization of a flushed block,
* the varint byte codec (`ByteCodec_c::EncodeValue` / `DecodeValue`),
* the orchestration in `Builder_c::Done` / `Builder_c::WriteMeta`
  (block-offset bookkeeping and the order of meta-trailer writes),
* `Builder_c::Setup`'s flush-threshold computation and the `Builder_c::SetAttr`
  guards.

Values are modelled as `Nat` (the index widths are `uint32`/`uint64`; `float`
attributes are reinterpreted bit-wise to `uint32` on write, `int64` to `uint64`).
The integer codec (FastPFOR) is an external capability (`IntCodec_i`); it is a
parameter `codec : List Nat → List Nat` throughout (a u32 span in, a packed u32
buffer out).  Machine files are modelled as byte lists (`List Nat`, each < 256).
-/

set_option maxHeartbeats 1000000

namespace Columnar

/-- A pair flowing through the pipeline: `RawValue_T` of builder.cpp
(`m_tValue`, `m_tRowid`).  The value has already been mapped to its index
width (`uint32`/`uint64` reinterpretation), so it is a `Nat`. -/
structure RawValue where
  value : Nat
  rowid : Nat
deriving DecidableEq, Repr

/-- `RawValueCmp`: the strict comparator used by `std::sort` in
`RawWriter_T::Flush`: `a.value==b.value ? a.rowid<b.rowid : a.value<b.value`.
(`PQGreater::operator()` is the same comparison with the arguments swapped.) -/
def rawValueCmp (a b : RawValue) : Prop :=
  if a.value = b.value then a.rowid < b.rowid else a.value < b.value

instance : DecidableRel rawValueCmp := fun a b =>
  inferInstanceAs (Decidable (if a.value = b.value then a.rowid < b.rowid else a.value < b.value))

/-- The non-strict order induced by `RawValueCmp`: the postcondition of
`std::sort(cmp)` is sortedness w.r.t. `fun a b => ¬ cmp b a`. -/
def rawValueLe (a b : RawValue) : Prop := ¬ rawValueCmp b a

instance : DecidableRel rawValueLe := fun a b =>
  inferInstanceAs (Decidable (¬ rawValueCmp b a))

instance : IsTotal RawValue rawValueLe :=
  ⟨fun a b => by
    simp only [rawValueLe, rawValueCmp]
    split_ifs <;> omega⟩

instance : IsTrans RawValue rawValueLe :=
  ⟨fun a b c hab hbc => by
    simp only [rawValueLe, rawValueCmp] at *
    split_ifs at * <;> omega⟩

instance : IsAntisymm RawValue rawValueLe :=
  ⟨fun a b hab hba => by
    cases a
    cases b
    simp only [rawValueLe, rawValueCmp, RawValue.mk.injEq] at *
    split_ifs at * <;> omega⟩

instance : IsRefl RawValue rawValueLe :=
  ⟨by intro a; simp [rawValueLe, rawValueCmp]⟩

/-! ## Varint byte codec (`ByteCodec_c`, `src/util/util.h`) -/

/-- The `while` loop of `ByteCodec_c::CalcPackedLen`. -/
def calcPackedLenGo (u : Nat) (k : Nat) : Nat :=
  if u = 0 then k else calcPackedLenGo (u >>> 7) (k + 1)
termination_by u
decreasing_by
  simp only [Nat.shiftRight_eq_div_pow]
  exact Nat.div_lt_self (Nat.pos_of_ne_zero (by assumption)) (by norm_num)

/-- `ByteCodec_c::CalcPackedLen`: number of 7-bit groups of `v`
(`iNumBytes = 1; uValue >>= 7; while (uValue) { uValue >>= 7; iNumBytes++ }`). -/
def calcPackedLen (v : Nat) : Nat := calcPackedLenGo (v >>> 7) 1

/-- `ByteCodec_c::EncodeValue`: 7-bit groups emitted most-significant first;
byte for group `i` (counting from the least significant) is
`((v >> 7*i) & 0x7f) | (i ? 0x80 : 0)`, written for `i = n-1 .. 0`. -/
def encodeValue (v : Nat) : List Nat :=
  (List.range (calcPackedLen v)).reverse.map fun i =>
    if i = 0 then (v >>> (7 * i)) &&& 0x7f
    else ((v >>> (7 * i)) &&& 0x7f) ||| 0x80

/-- The accumulator loop of `ByteCodec_c::DecodeValue`
(`while (byte & 0x80) { acc = (acc << 7) | (byte & 0x7f); byte = next }`,
then `return (acc << 7) | byte`).  The input is assumed to be one complete
varint (the C++ reader pulls bytes from a stream). -/
def decodeValueGo (acc : Nat) : List Nat → Nat
  | [] => acc
  | b :: rest =>
    if b &&& 0x80 ≠ 0 then decodeValueGo ((acc <<< 7) ||| (b &&& 0x7f)) rest
    else (acc <<< 7) ||| b

/-- `ByteCodec_c::DecodeValue` applied to a byte list. -/
def decodeValue (bytes : List Nat) : Nat := decodeValueGo 0 bytes

/-- Little-endian bytes of a `uint32`, as written by `Write_uint32` /
`MemWriter_c::WriteValue` on a little-endian machine. -/
def u32LEBytes (x : Nat) : List Nat :=
  [x % 256, x / 256 % 256, x / 65536 % 256, x / 16777216 % 256]

/-- Modelled from the spec: `ComputeDeltas` (declared in `delta.h`, which is
not under `src/`) delta-encodes an ascending sequence in place: the first
element is kept, every later element is replaced by its difference from its
predecessor ("Row-ids are first delta-encoded", "`block_offsets_starts` is
delta-encoded across attributes").  Inner loop. -/
def computeDeltasGo (p : Nat) : List Nat → List Nat
  | [] => []
  | x :: xs => (x - p) :: computeDeltasGo x xs

/-- Modelled from the spec: `ComputeDeltas` (see `computeDeltasGo`). -/
def computeDeltas : List Nat → List Nat
  | [] => []
  | x :: xs => x :: computeDeltasGo x xs

/-- Modelled from the spec: the reader-side inverse of `ComputeDeltas`
("after un-deltaing"): running prefix sums.  Inner loop. -/
def unDeltasGo (p : Nat) : List Nat → List Nat
  | [] => []
  | d :: ds => (p + d) :: unDeltasGo (p + d) ds

/-- Modelled from the spec: un-delta (see `unDeltasGo`). -/
def unDeltas : List Nat → List Nat
  | [] => []
  | d :: ds => d :: unDeltasGo d ds

/-! ## Run generation (`RawWriter_T::Flush`) and k-way merge (`SIWriter_T::Process`) -/

/-- `RawWriter_T::Flush` sorts the in-memory pair buffer with
`std::sort(RawValueCmp)` before appending it as one run.  Because
`rawValueLe` is antisymmetric, the sorted permutation is unique, so any
correct sort yields this list. -/
def sortRun (l : List RawValue) : List RawValue := List.insertionSort rawValueLe l

/-- `BinValue_T`: one merge source — the pair currently loaded (`Read` into
the object) plus the unread remainder of that run's file region. -/
structure BinValue where
  head : RawValue
  rest : List RawValue
deriving DecidableEq, Repr

/-- All pairs of a merge source, current first. -/
def binElems (b : BinValue) : List RawValue := b.head :: b.rest

/-- Total number of pairs among the merge sources. -/
def binsSize (bs : List BinValue) : Nat := (bs.map fun b => 1 + b.rest.length).sum

/-- Extraction of the minimum from the `std::priority_queue` ordered by
`PQGreater` (a min-heap on `(value asc, rowid asc)`): returns the bin with
the least current pair, and the other bins.  Ties between equal current
pairs may be popped in any order by the heap; this model keeps the
earliest-listed bin, which emits the same pair either way. -/
def selectMin : BinValue → List BinValue → BinValue × List BinValue
  | b, [] => (b, [])
  | b, c :: cs =>
    let r := selectMin c cs
    if rawValueCmp r.1.head b.head then (r.1, b :: r.2) else (b, c :: cs)

/-- After the popped bin's `Read()`: if its region still has a pair it is
pushed back with the next pair loaded, otherwise it is dropped. -/
def reinsertBin (rest : List RawValue) (bs : List BinValue) : List BinValue :=
  match rest with
  | [] => bs
  | h :: t => ⟨h, t⟩ :: bs

/-- The merge loop of `SIWriter_T::Process`: repeatedly pop the minimum,
emit its current pair, advance that run.  Structural recursion is on the
total number of remaining pairs (`fuel`), which decreases by one per
iteration. -/
def mergeBinsFuel : Nat → List BinValue → List RawValue
  | 0, _ => []
  | _, [] => []
  | n + 1, b :: bs =>
    let r := selectMin b bs
    r.1.head :: mergeBinsFuel n (reinsertBin r.1.rest r.2)

/-- Initial heap fill of `SIWriter_T::Process`: one `BinValue_T` per run
with its first pair loaded.  `RawWriter_T::Flush` never writes an empty run
(an empty buffer records no offset), so the empty-run case cannot arise;
it is skipped here, contributing no pairs. -/
def binsOfRuns (runs : List (List RawValue)) : List BinValue :=
  runs.filterMap fun r =>
    match r with
    | [] => none
    | h :: t => some ⟨h, t⟩

/-- The full k-way merge of one attribute's runs. -/
def mergeRuns (runs : List (List RawValue)) : List RawValue :=
  mergeBinsFuel (binsSize (binsOfRuns runs)) (binsOfRuns runs)

/-- The pair stream `SIWriter_T::Process` forwards to the block encoder,
for an attribute whose input was split into the given runs: each run is
sorted by its flush, then all runs are k-way merged. -/
def mergedOf (runs : List (List RawValue)) : List RawValue :=
  mergeRuns (runs.map sortRun)

/-! ## Value grouping (`RowWriter_t::AddValue` / `NextValue`) -/

/-- Grouping loop: `v` is `m_tLastValue`, `rs` the row-ids collected for the
current group.  `NextValue` appends the row-id when `m_tLastValue == value`,
otherwise closes the group and starts a new one (`AddValue`). -/
def groupsGo (v : Nat) (rs : List Nat) : List RawValue → List (Nat × List Nat)
  | [] => [(v, rs)]
  | p :: ps =>
    if v = p.value then groupsGo v (rs ++ [p.rowid]) ps
    else (v, rs) :: groupsGo p.value [p.rowid] ps

/-- The value groups of a pair stream: one `(value, row-ids)` entry per
maximal run of adjacent equal values (first pair via `AddValue`, the rest
via `NextValue`). -/
def groups : List RawValue → List (Nat × List Nat)
  | [] => []
  | p :: ps => groupsGo p.value [p.rowid] ps

/-! ## The block writer state machine (`RowWriter_t`) -/

/-- `VALUES_PER_BLOCK` (builder.cpp `#define`). -/
def valuesPerBlock : Nat := 128

/-- The data of one flushed value block, as captured at the top of
`RowWriter_t::FlushBlock`: `m_dValues`, `m_dRowStart` (staging offsets into
`m_dRows`), `m_dRows`. -/
structure EncBlock where
  values : List Nat
  rowStart : List Nat
  rows : List Nat
deriving DecidableEq, Repr

/-- The growing buffers of `RowWriter_t` between flushes, plus
`m_tLastValue`. -/
structure RowWriterState where
  values : List Nat
  rowStart : List Nat
  rows : List Nat
  lastValue : Nat
deriving DecidableEq, Repr

def initWriterState : RowWriterState := ⟨[], [], [], 0⟩

/-- `RowWriter_t::FlushBlock` (state part): if the buffers are empty do
nothing, otherwise emit the current block and clear the buffers.  The second
component of the state collects the flushed blocks in output order. -/
def flushBlockState (s : RowWriterState × List EncBlock) : RowWriterState × List EncBlock :=
  if s.1.values = [] then s
  else (⟨[], [], [], s.1.lastValue⟩, s.2 ++ [⟨s.1.values, s.1.rowStart, s.1.rows⟩])

/-- `RowWriter_t::FlushValue`: flush only when `VALUES_PER_BLOCK` values
have accumulated. -/
def flushValueState (s : RowWriterState × List EncBlock) : RowWriterState × List EncBlock :=
  if s.1.values.length < valuesPerBlock then s else flushBlockState s

/-- `RowWriter_t::AddValue`: start a new group (push the staging offset
`m_dRows.size()`, the value, and the row-id; remember the value). -/
def addValueState (st : RowWriterState) (p : RawValue) : RowWriterState :=
  ⟨st.values ++ [p.value], st.rowStart ++ [st.rows.length], st.rows ++ [p.rowid], p.value⟩

/-- `RowWriter_t::NextValue` (integer instantiation, `FLOAT_VALUE = false`):
append the row-id when the value repeats, otherwise `FlushValue` then
`AddValue`. -/
def nextValueState (s : RowWriterState × List EncBlock) (p : RawValue) : RowWriterState × List EncBlock :=
  if s.1.lastValue = p.value then ({ s.1 with rows := s.1.rows ++ [p.rowid] }, s.2)
  else
    let t := flushValueState s
    (addValueState t.1 p, t.2)

/-- The writer driving loop of `SIWriter_T::Process`: the first merged pair
goes through `AddValue` (initial fill), every later pair through
`NextValue`, and `Done` flushes the tail block. -/
def writerRun (input : List RawValue) : RowWriterState × List EncBlock :=
  match input with
  | [] => flushBlockState (initWriterState, [])
  | p :: ps => flushBlockState (ps.foldl nextValueState (addValueState initWriterState p, []))

/-- The content of the PGM-values side file after `Process`: `FlushBlock`
appends `m_dValues` of every flushed block (`WriteRawValues`) in order. -/
def pgmValuesFile (input : List RawValue) : List Nat :=
  ((writerRun input).2.map EncBlock.values).flatten

/-- `groupStarts off gs`: the staging `m_dRowStart` contents for the groups
`gs` of one block — each group's start is the total row count of the groups
before it (offset by `off`). -/
def groupStarts (off : Nat) : List (Nat × List Nat) → List Nat
  | [] => []
  | g :: gs => off :: groupStarts (off + g.2.length) gs

/-- The block a list of value groups flushes to: values, staging row starts,
concatenated row-ids. -/
def blockOfGroups (gs : List (Nat × List Nat)) : EncBlock :=
  ⟨gs.map Prod.fst, groupStarts 0 gs, (gs.map Prod.snd).flatten⟩

/-- Chunks of `VALUES_PER_BLOCK = 128` consecutive elements (the last chunk
may be shorter). -/
def chunks128 : List α → List (List α)
  | [] => []
  | x :: xs => (x :: xs).take 128 :: chunks128 ((x :: xs).drop 128)
termination_by l => l.length
decreasing_by simp only [List.length_drop, List.length_cons]; omega

/-! ## Posting layout and block serialization (`RowWriter_t::FlushBlock`) -/

/-- `Packing_e::ROW` — a single row-id stored literally in `row_start`.
Modelled from the spec: the `Packing_e` tag constants live in `sidx.h`,
which is not under `src/`; only the symbolic distinctness of the three tags
matters here. -/
def packingROW : Nat := 0

/-- `Packing_e::ROW_BLOCK` — one encoded row block (2..128 row-ids). -/
def packingROWBLOCK : Nat := 1

/-- `Packing_e::ROW_BLOCKS_LIST` — a varint block count followed by the
encoded row blocks (more than 128 row-ids). -/
def packingROWBLOCKSLIST : Nat := 2

/-- `WriteVectorLen32`: `Pack_uint32(size)` (varint) followed by the raw
little-endian bytes of the `uint32` words. -/
def writeVectorLen32Bytes (words : List Nat) : List Nat :=
  encodeValue words.length ++ (words.map u32LEBytes).flatten

/-- `WriteVectorRawLen32`: `Write_uint32(size)` (raw 32-bit little-endian
length prefix) followed by the raw bytes. -/
def writeVectorRawLen32Bytes (bytes : List Nat) : List Nat :=
  u32LEBytes bytes.length ++ bytes

/-- `EncodeRowsBlock` (one row block): `Pack_uint32(min)`,
`Pack_uint32(max - min)`, then `WriteVectorLen32` of the codec-packed
delta-encoded row-ids.  (`min`/`max` are `front()`/`back()` of the slice,
read before the in-place delta; the `needPaddingTo128Bits` `memmove` only
realigns memory and does not change the encoded data.) -/
def encodeRowsBlockBytes (codec : List Nat → List Nat) (rows : List Nat) : List Nat :=
  encodeValue (rows.headD 0) ++ encodeValue (rows.getLastD 0 - rows.headD 0) ++
    writeVectorLen32Bytes (codec (computeDeltas rows))

/-- The outcome of `FlushBlock`'s row-packing loop: `m_dTypes`, the
rewritten `m_dRowStart`, `m_dRowsPacked`, and the `bLenDelta` flag. -/
structure PackOut where
  types : List Nat
  starts : List Nat
  packed : List Nat
  lenDelta : Bool
deriving DecidableEq, Repr

/-- One iteration of the `for (iItem...)` loop of `RowWriter_t::FlushBlock`,
for the item whose staging start is `s` and whose successor start (or
`m_dRows.size()` for the last item) is `nextOff`.  The group's row count is
`c = nextOff - s`.  A count of 1 stores the row-id itself in `row_start` and
forces `bLenDelta = false`; a count of 2..128 appends one encoded row block
at the current `m_dRowsPacked` position; a larger count appends a varint
block count followed by `ceil(c/128)` encoded row blocks of 128 row-ids each
except a possibly shorter last one. -/
def packRowsStep (codec : List Nat → List Nat) (rows : List Nat) (s nextOff : Nat)
    (acc : PackOut) : PackOut :=
  let c := nextOff - s
  if c = 1 then
    ⟨acc.types ++ [packingROW], acc.starts ++ [rows.getD s 0], acc.packed, false⟩
  else if c ≤ valuesPerBlock then
    ⟨acc.types ++ [packingROWBLOCK], acc.starts ++ [acc.packed.length],
      acc.packed ++ encodeRowsBlockBytes codec ((rows.drop s).take c), acc.lenDelta⟩
  else
    let n := (c + valuesPerBlock - 1) / valuesPerBlock
    ⟨acc.types ++ [packingROWBLOCKSLIST], acc.starts ++ [acc.packed.length],
      acc.packed ++ encodeValue n ++
        ((List.range n).map fun b =>
          encodeRowsBlockBytes codec
            ((rows.drop (s + b * valuesPerBlock)).take
              (if b = n - 1 then c - b * valuesPerBlock else valuesPerBlock))).flatten,
      acc.lenDelta⟩

/-- The `for (iItem...)` loop of `RowWriter_t::FlushBlock` over the staging
`m_dRowStart` entries: each item's row count is the difference to the next
start, the last item's to `m_dRows.size()`. -/
def packRowsLoop (codec : List Nat → List Nat) (rows : List Nat) :
    List Nat → PackOut → PackOut
  | [], acc => acc
  | [s], acc => packRowsStep codec rows s rows.length acc
  | s :: s' :: rest, acc => packRowsLoop codec rows (s' :: rest) (packRowsStep codec rows s s' acc)

/-- The row-packing phase of `RowWriter_t::FlushBlock` on a block's buffers
(`bLenDelta` starts `true`). -/
def packRows (codec : List Nat → List Nat) (b : EncBlock) : PackOut :=
  packRowsLoop codec b.rows b.rowStart ⟨[], [], [], true⟩

/-- `EncodeBlock`: in-place delta, codec, then `WriteVectorLen32`. -/
def encodeBlockBytes (codec : List Nat → List Nat) (src : List Nat) : List Nat :=
  writeVectorLen32Bytes (codec (computeDeltas src))

/-- `EncodeBlockWoDelta`: codec then `WriteVectorLen32`, no delta. -/
def encodeBlockWoDeltaBytes (codec : List Nat → List Nat) (src : List Nat) : List Nat :=
  writeVectorLen32Bytes (codec src)

/-- The bytes `RowWriter_t::FlushBlock` appends to the output file: encoded
`m_dValues` (delta), encoded `m_dTypes` (no delta), the one-byte
`bLenDelta` flag, encoded `m_dRowStart` (delta iff the flag is set), then
`m_dRowsPacked` verbatim (`WriteVector`, which writes only the raw data).
An empty block writes nothing (early return). -/
def flushBlockOutBytes (codec : List Nat → List Nat) (b : EncBlock) : List Nat :=
  if b.values = [] then []
  else
    let p := packRows codec b
    encodeBlockBytes codec b.values ++ encodeBlockWoDeltaBytes codec p.types ++
      [if p.lenDelta then 1 else 0] ++
      (if p.lenDelta then encodeBlockBytes codec p.starts
       else encodeBlockWoDeltaBytes codec p.starts) ++
      p.packed

/-- The spec's claimed layout for the final step (spec §4.3 step 6: "Append
`rows_packed` verbatim with a 32-bit length prefix"): identical to
`flushBlockOutBytes` except that `rows_packed` is preceded by a raw 32-bit
length prefix (`WriteVectorRawLen32`-style).  Stated only to be compared
with the code's behaviour. -/
def flushBlockOutBytesClaimed (codec : List Nat → List Nat) (b : EncBlock) : List Nat :=
  if b.values = [] then []
  else
    let p := packRows codec b
    encodeBlockBytes codec b.values ++ encodeBlockWoDeltaBytes codec p.types ++
      [if p.lenDelta then 1 else 0] ++
      (if p.lenDelta then encodeBlockBytes codec p.starts
       else encodeBlockWoDeltaBytes codec p.starts) ++
      writeVectorRawLen32Bytes p.packed

/-! ### Per-group characterization of the packing loop -/

/-- The posting tag `FlushBlock` assigns to a group with these row-ids. -/
def groupTag (rows : List Nat) : Nat :=
  if rows.length = 1 then packingROW
  else if rows.length ≤ valuesPerBlock then packingROWBLOCK
  else packingROWBLOCKSLIST

/-- The bytes a group contributes to `m_dRowsPacked`: nothing for a single
row-id, one encoded row block for 2..128, and a varint block count followed
by the encoded 128-row chunks for more. -/
def groupPayload (codec : List Nat → List Nat) (rows : List Nat) : List Nat :=
  if rows.length = 1 then []
  else if rows.length ≤ valuesPerBlock then encodeRowsBlockBytes codec rows
  else
    let n := (rows.length + valuesPerBlock - 1) / valuesPerBlock
    encodeValue n ++
      ((List.range n).map fun b =>
        encodeRowsBlockBytes codec
          ((rows.drop (b * valuesPerBlock)).take
            (if b = n - 1 then rows.length - b * valuesPerBlock else valuesPerBlock))).flatten

/-- The rewritten `row_start` entries for a group list: the literal row-id
for singleton groups, otherwise the `m_dRowsPacked` offset (the total length
of the payloads before this group, starting from `pos`). -/
def specStarts (codec : List Nat → List Nat) (pos : Nat) : List (Nat × List Nat) → List Nat
  | [] => []
  | g :: gs =>
    (if g.2.length = 1 then g.2.headD 0 else pos) ::
      specStarts codec (pos + (groupPayload codec g.2).length) gs

/-! ## Orchestration (`Builder_c::Done` / `Builder_c::WriteMeta`) -/

/-- Blocks flushed for one attribute, given its input split into runs:
`Process` merges the runs and drives the block writer. -/
def numBlocksOfAttr (runs : List (List RawValue)) : Nat :=
  (writerRun (mergedOf runs)).2.length

/-- The per-attribute start offsets recorded into `dBlocksOffStart` by
`Builder_c::Done`: before processing each attribute it records
`tTmpBlocks.GetPos()`, and `Process` appends one `Write_uint64` (8 bytes)
to `tTmpBlocks` per flushed block. -/
def blocksOffStartsGo (pos : Nat) : List (List (List RawValue)) → List Nat
  | [] => []
  | a :: rest => pos :: blocksOffStartsGo (pos + 8 * numBlocksOfAttr a) rest

/-- `dBlocksOffStart` for a build whose attributes received the given
per-attribute run lists. -/
def blocksOffStarts (attrs : List (List (List RawValue))) : List Nat :=
  blocksOffStartsGo 0 attrs

/-- The write steps of `Builder_c::WriteMeta`, in program order:
seek to offset 4 and overwrite the header's meta-offset placeholder;
seek to `uMetaOff` and write the meta record (next-meta link, attr count,
enabled bitvec, codec names, collation, values-per-block, schema, packed
offset/count vectors); append the PGM staging file (`CopySingleFile`);
append the block-offsets staging file (`CopySingleFile`). -/
inductive MetaEvent where
  | patchHeader
  | writeMetaRecord
  | appendPgm
  | appendBlocksOffsets
deriving DecidableEq, Repr

/-- The order in which `Builder_c::WriteMeta` performs its four write
steps (builder.cpp lines 368-406). -/
def writeMetaEvents : List MetaEvent :=
  [MetaEvent.patchHeader, MetaEvent.writeMetaRecord, MetaEvent.appendPgm,
    MetaEvent.appendBlocksOffsets]

/-- An abstract view of the output file during `WriteMeta`: the value in the
header's meta-offset slot, and which trailer parts have been written. -/
structure OutFileView where
  metaOff : Nat
  metaRecordWritten : Bool
  pgmAppended : Bool
  blocksOffAppended : Bool
deriving DecidableEq, Repr

/-- Effect of one `WriteMeta` step on the output file. -/
def stepMetaEvent (uMetaOff : Nat) (st : OutFileView) : MetaEvent → OutFileView
  | MetaEvent.patchHeader => { st with metaOff := uMetaOff }
  | MetaEvent.writeMetaRecord => { st with metaRecordWritten := true }
  | MetaEvent.appendPgm => { st with pgmAppended := true }
  | MetaEvent.appendBlocksOffsets => { st with blocksOffAppended := true }

/-- The sequence of observable output-file states during `WriteMeta`,
starting from the state `Done` leaves behind: header written with
`meta_offset = 0`, no trailer parts yet. -/
def writeMetaStates (uMetaOff : Nat) : List OutFileView :=
  writeMetaEvents.scanl (stepMetaEvent uMetaOff) ⟨0, false, false, false⟩

/-- A well-formed complete meta trailer: the meta record and both staged
appendices are present. -/
def metaTrailerComplete (st : OutFileView) : Bool :=
  st.metaRecordWritten && st.pgmAppended && st.blocksOffAppended

/-! ## `Builder_c::Setup` (flush threshold) -/

/-- `AttrType_e` (the builder's supported subset plus the unsupported
default). -/
inductive AttrType where
  | uint32
  | timestamp
  | float
  | int64
  | string
  | uint32set
  | int64set
  | unsupported
deriving DecidableEq, Repr

/-- The per-pair item size of the raw writer `Builder_c::Setup` creates for
an attribute type: `sizeof(RawValue_T<uint32_t>) = sizeof(RawValue_T<float>)
= 8`, `sizeof(RawValue_T<uint64_t>) = sizeof(RawValue_T<int64_t>) = 16`
(8-byte value + 4-byte row-id + padding); `none` when the `switch` falls
through to `default` and no writer is created. -/
def writerItemSize : AttrType → Option Nat
  | AttrType.uint32 => some 8
  | AttrType.timestamp => some 8
  | AttrType.uint32set => some 8
  | AttrType.float => some 8
  | AttrType.string => some 16
  | AttrType.int64 => some 16
  | AttrType.int64set => some 16
  | AttrType.unsupported => none

/-- `iRowSize` in `Builder_c::Setup`: the sum of `GetItemSize()` over the
writers that were actually created. -/
def rowSizeOf (attrs : List AttrType) : Nat := (attrs.filterMap writerItemSize).sum

/-- `m_iMaxRows = std::max(1000, iMemoryLimit / 3 / iRowSize)`.  C++ `int`
division truncates toward zero (`Int.tdiv`); division by zero is undefined
behaviour, so the computation is modelled as `none` when `iRowSize = 0`
(the source has no guard). -/
def setupMaxRows (iMemoryLimit : Int) (attrs : List AttrType) : Option Int :=
  let iRowSize : Int := rowSizeOf attrs
  if iRowSize = 0 then none
  else some (max 1000 (Int.tdiv (Int.tdiv iMemoryLimit 3) iRowSize))

/-! ## `Builder_c::SetAttr` guards -/

/-- One collector's accumulated pairs, as `(row-id, datum)` in insertion
order (the datum is the 64-bit scalar, hash, or set element pushed). -/
abbrev CollectorLog := List (Nat × Int)

/-- The builder state visible to `SetAttr`: the current row-id and the
writer table (`m_dRawWriter`; `none` entries are attributes without a
writer, i.e. unsupported types or gaps in the source attr numbering). -/
structure BuilderState where
  rowID : Nat
  writers : List (Option CollectorLog)
deriving DecidableEq, Repr

/-- The C++ comparison `iAttr < m_dRawWriter.size()` converts the `int`
index to `size_t` (64-bit unsigned), so a negative index becomes a huge
unsigned value and fails the bound check. -/
def intToSizeT (i : Int) : Nat := (i % (2 : Int) ^ 64).toNat

/-- `Builder_c::SetAttr(int, int64)`: guarded by
`iAttr < m_dRawWriter.size() && m_dRawWriter[iAttr]`; silently does nothing
when the guard fails.  (`getD _ none` yields `none` both for an
out-of-range index and for a missing writer, exactly the guard.) -/
def builderSetAttrInt (st : BuilderState) (iAttr : Int) (tAttr : Int) : BuilderState :=
  match st.writers.getD (intToSizeT iAttr) none with
  | none => st
  | some log =>
    { st with writers := st.writers.set (intToSizeT iAttr) (some (log ++ [(st.rowID, tAttr)])) }

/-- `Builder_c::SetAttr(int, const uint8_t*, int)` (string shape): the
writer stores the collation hash of the bytes.  Same guard. -/
def builderSetAttrBytes (hash : List Nat → Int) (st : BuilderState) (iAttr : Int)
    (data : List Nat) : BuilderState :=
  match st.writers.getD (intToSizeT iAttr) none with
  | none => st
  | some log =>
    { st with writers := st.writers.set (intToSizeT iAttr) (some (log ++ [(st.rowID, hash data)])) }

/-- `Builder_c::SetAttr(int, const int64_t*, int)` (set shape): one pair per
array element, same row-id.  Same guard. -/
def builderSetAttrArray (st : BuilderState) (iAttr : Int) (data : List Int) : BuilderState :=
  match st.writers.getD (intToSizeT iAttr) none with
  | none => st
  | some log =>
    let upd := st.writers.set (intToSizeT iAttr) (some (log ++ data.map fun v => (st.rowID, v)))
    { st with writers := upd }

/-! # Theorems -/

/-! ## Arithmetic helpers for the byte codec -/

theorem and_127_eq_mod (x : Nat) : x &&& 127 = x % 128 := by
  have h := Nat.and_pow_two_sub_one_eq_mod x 7
  norm_num at h
  exact h

theorem lor_two_pow_eq_add {k y : Nat} (h : y < 2 ^ k) : y ||| 2 ^ k = y + 2 ^ k := by
  have h2 := Nat.mul_add_lt_is_or h 1
  rw [Nat.mul_one] at h2
  rw [Nat.lor_comm, ← h2, Nat.add_comm]

theorem lor_128_eq_add {y : Nat} (h : y < 128) : y ||| 128 = y + 128 := by
  have h7 : y < 2 ^ 7 := by norm_num; omega
  have h2 := lor_two_pow_eq_add h7
  norm_num at h2
  exact h2

theorem shiftLeft7_lor_eq {acc y : Nat} (h : y < 128) : (acc <<< 7) ||| y = acc * 128 + y := by
  rw [Nat.shiftLeft_eq]
  have h7 : y < 2 ^ 7 := by norm_num; omega
  have h2 := Nat.mul_add_lt_is_or h7 acc
  calc acc * 2 ^ 7 ||| y = 2 ^ 7 * acc ||| y := by rw [Nat.mul_comm]
    _ = 2 ^ 7 * acc + y := h2.symm
    _ = acc * 128 + y := by norm_num [Nat.mul_comm]

theorem and_128_eq_zero {x : Nat} (h : x < 128) : x &&& 128 = 0 := by
  have e : (128 : Nat) = 2 ^ 7 := by norm_num
  have ht : x.testBit 7 = false := Nat.testBit_lt_two_pow (by omega)
  calc x &&& 128 = x &&& 2 ^ 7 := by rw [← e]
    _ = (x.testBit 7).toNat * 2 ^ 7 := Nat.and_two_pow x 7
    _ = 0 := by rw [ht]; norm_num

theorem add_128_and_128 {y : Nat} (h : y < 128) : (y + 128) &&& 128 = 128 := by
  have e : (128 : Nat) = 2 ^ 7 := by norm_num
  have ht : (y + 128).testBit 7 = true := by
    rw [Nat.testBit_to_div_mod]
    simp only [decide_eq_true_eq]
    norm_num
    omega
  calc (y + 128) &&& 128 = (y + 128) &&& 2 ^ 7 := by rw [← e]
    _ = ((y + 128).testBit 7).toNat * 2 ^ 7 := Nat.and_two_pow _ 7
    _ = 128 := by rw [ht]; norm_num

/-! ## `CalcPackedLen` facts -/

theorem calcPackedLenGo_zero (k : Nat) : calcPackedLenGo 0 k = k := by
  unfold calcPackedLenGo
  simp

theorem calcPackedLenGo_succ {u : Nat} (h : u ≠ 0) (k : Nat) :
    calcPackedLenGo u k = calcPackedLenGo (u >>> 7) (k + 1) := by
  conv_lhs => unfold calcPackedLenGo
  simp [h]

theorem shiftRight7_lt {u : Nat} (h : u ≠ 0) : u >>> 7 < u := by
  rw [Nat.shiftRight_eq_div_pow]
  exact Nat.div_lt_self (Nat.pos_of_ne_zero h) (by norm_num)

theorem calcPackedLenGo_shift (u : Nat) : ∀ k, calcPackedLenGo u k = k + calcPackedLenGo u 0 := by
  induction u using Nat.strong_induction_on with
  | _ u ih =>
    intro k
    by_cases h : u = 0
    · subst h
      simp [calcPackedLenGo_zero]
    · rw [calcPackedLenGo_succ h, calcPackedLenGo_succ h 0, ih _ (shiftRight7_lt h) (k + 1),
        ih _ (shiftRight7_lt h) 1]
      omega

theorem lt_two_pow_calcPackedLenGo (u : Nat) : u < 2 ^ (7 * calcPackedLenGo u 0) := by
  induction u using Nat.strong_induction_on with
  | _ u ih =>
    by_cases h : u = 0
    · subst h
      simp [calcPackedLenGo_zero]
    · rw [calcPackedLenGo_succ h, calcPackedLenGo_shift]
      set m := calcPackedLenGo (u >>> 7) 0 with hm
      have hb := ih _ (shiftRight7_lt h)
      rw [← hm] at hb
      have hdiv : u >>> 7 = u / 128 := by
        rw [Nat.shiftRight_eq_div_pow]
      rw [hdiv] at hb
      have he : 2 ^ (7 * (0 + 1 + m)) = 128 * 2 ^ (7 * m) := by
        rw [show 7 * (0 + 1 + m) = 7 + 7 * m by ring, pow_add]
        norm_num
      rw [he]
      omega

theorem calcPackedLen_pos (v : Nat) : 1 ≤ calcPackedLen v := by
  unfold calcPackedLen
  rw [calcPackedLenGo_shift]
  omega

theorem lt_two_pow_calcPackedLen (v : Nat) : v < 2 ^ (7 * calcPackedLen v) := by
  unfold calcPackedLen
  rw [calcPackedLenGo_shift]
  set m := calcPackedLenGo (v >>> 7) 0 with hm
  have hb := lt_two_pow_calcPackedLenGo (v >>> 7)
  rw [← hm] at hb
  have hdiv : v >>> 7 = v / 128 := by
    rw [Nat.shiftRight_eq_div_pow]
  rw [hdiv] at hb
  have he : 2 ^ (7 * (1 + m)) = 128 * 2 ^ (7 * m) := by
    rw [show 7 * (1 + m) = 7 + 7 * m by ring, pow_add]
    norm_num
  rw [he]
  omega

/-! ## Varint round trip -/

theorem decodeValueGo_cons_high {b : Nat} (h : b &&& 0x80 ≠ 0) (acc : Nat) (rest : List Nat) :
    decodeValueGo acc (b :: rest) = decodeValueGo ((acc <<< 7) ||| (b &&& 0x7f)) rest := by
  simp only [decodeValueGo]
  rw [if_pos h]

theorem decodeValueGo_cons_low {b : Nat} (h : b &&& 0x80 = 0) (acc : Nat) (rest : List Nat) :
    decodeValueGo acc (b :: rest) = (acc <<< 7) ||| b := by
  simp only [decodeValueGo]
  rw [if_neg (not_not_intro h)]

theorem decodeValueGo_encode (v : Nat) : ∀ i acc,
    decodeValueGo acc ((List.range (i + 1)).reverse.map fun j =>
      if j = 0 then (v >>> (7 * j)) &&& 0x7f else ((v >>> (7 * j)) &&& 0x7f) ||| 0x80)
    = acc * 2 ^ (7 * (i + 1)) + v % 2 ^ (7 * (i + 1)) := by
  intro i
  induction i with
  | zero =>
    intro acc
    have hmod : v &&& 127 = v % 128 := and_127_eq_mod v
    have hlt : v % 128 < 128 := Nat.mod_lt _ (by norm_num)
    simp only [List.range_succ, List.range_zero, List.nil_append, List.reverse_cons,
      List.reverse_nil, List.map_cons, List.map_nil, decodeValueGo]
    norm_num [hmod, and_128_eq_zero hlt, shiftLeft7_lor_eq hlt]
  | succ i ih =>
    intro acc
    have hstep : (List.range (i + 1 + 1)).reverse = (i + 1) :: (List.range (i + 1)).reverse := by
      rw [List.range_succ, List.reverse_append]
      simp
    rw [hstep, List.map_cons]
    have hy : (v >>> (7 * (i + 1))) &&& 127 = (v >>> (7 * (i + 1))) % 128 := and_127_eq_mod _
    have hylt : (v >>> (7 * (i + 1))) % 128 < 128 := Nat.mod_lt _ (by norm_num)
    have hhead : (if i + 1 = 0 then (v >>> (7 * (i + 1))) &&& 0x7f
        else ((v >>> (7 * (i + 1))) &&& 0x7f) ||| 0x80)
        = (v >>> (7 * (i + 1))) % 128 + 128 := by
      norm_num [hy, lor_128_eq_add hylt]
    rw [hhead]
    have hand : ((v >>> (7 * (i + 1))) % 128 + 128) &&& 0x80 = 128 := add_128_and_128 hylt
    have hand7 : ((v >>> (7 * (i + 1))) % 128 + 128) &&& 0x7f = (v >>> (7 * (i + 1))) % 128 := by
      have hq := and_127_eq_mod ((v >>> (7 * (i + 1))) % 128 + 128)
      norm_num at hq ⊢
      omega
    rw [decodeValueGo_cons_high (by rw [hand]; norm_num) acc]
    rw [hand7, shiftLeft7_lor_eq hylt, ih]
    have hsplit : v % 2 ^ (7 * (i + 1 + 1)) =
        v % 2 ^ (7 * (i + 1)) + 2 ^ (7 * (i + 1)) * (v / 2 ^ (7 * (i + 1)) % 128) := by
      rw [show (7 * (i + 1 + 1)) = 7 * (i + 1) + 7 by ring, pow_add]
      rw [Nat.mod_mul]
      norm_num
    rw [hsplit, Nat.shiftRight_eq_div_pow]
    rw [show (7 * (i + 1 + 1)) = 7 * (i + 1) + 7 by ring, pow_add]
    ring

theorem decodeValue_encodeValue (v : Nat) : decodeValue (encodeValue v) = v := by
  unfold decodeValue encodeValue
  obtain ⟨m, hm⟩ : ∃ m, calcPackedLen v = m + 1 :=
    ⟨calcPackedLen v - 1, by have := calcPackedLen_pos v; omega⟩
  rw [hm, decodeValueGo_encode v m 0]
  have hb := lt_two_pow_calcPackedLen v
  rw [hm] at hb
  simpa using Nat.mod_eq_of_lt hb

theorem encodeValue_length (v : Nat) : (encodeValue v).length = calcPackedLen v := by
  unfold encodeValue
  simp

theorem encodeValue_getD (v i : Nat) (h : i < calcPackedLen v) :
    (encodeValue v).getD i 0 =
      if i = calcPackedLen v - 1 then (v >>> (7 * (calcPackedLen v - 1 - i))) % 128
      else (v >>> (7 * (calcPackedLen v - 1 - i))) % 128 + 128 := by
  unfold encodeValue
  have hlen : i < ((List.range (calcPackedLen v)).reverse.map fun j =>
      if j = 0 then (v >>> (7 * j)) &&& 0x7f else ((v >>> (7 * j)) &&& 0x7f) ||| 0x80).length := by
    simpa using h
  rw [List.getD_eq_getElem _ _ hlen]
  rw [List.getElem_map, List.getElem_reverse, List.getElem_range]
  have hidx : (List.range (calcPackedLen v)).length - 1 - i = calcPackedLen v - 1 - i := by
    simp
  rw [hidx]
  by_cases hc : i = calcPackedLen v - 1
  · have h0 : calcPackedLen v - 1 - i = 0 := by omega
    rw [if_pos hc, h0]
    norm_num [and_127_eq_mod]
  · have h0 : calcPackedLen v - 1 - i ≠ 0 := by omega
    rw [if_neg hc, if_neg h0]
    have hy := and_127_eq_mod (v >>> (7 * (calcPackedLen v - 1 - i)))
    have hylt : (v >>> (7 * (calcPackedLen v - 1 - i))) % 128 < 128 := Nat.mod_lt _ (by norm_num)
    norm_num [hy, lor_128_eq_add hylt]

/-! ## Order facts -/

theorem rawValueLe_refl (a : RawValue) : rawValueLe a a := by
  simp [rawValueLe, rawValueCmp]

theorem rawValueLe_of_cmp {a b : RawValue} (h : rawValueCmp a b) : rawValueLe a b := by
  simp only [rawValueLe, rawValueCmp] at *
  split_ifs at * <;> omega

/-! ## Run sorting (`RawWriter_T::Flush`) -/

theorem sortRun_perm (l : List RawValue) : (sortRun l).Perm l := List.perm_insertionSort _ l

theorem sortRun_sorted (l : List RawValue) : List.Sorted rawValueLe (sortRun l) :=
  List.sorted_insertionSort _ l

/-! ## k-way merge (`SIWriter_T::Process`) -/

theorem selectMin_perm (b : BinValue) (bs : List BinValue) :
    ((selectMin b bs).1 :: (selectMin b bs).2).Perm (b :: bs) := by
  induction bs generalizing b with
  | nil => simp [selectMin]
  | cons c cs ih =>
    simp only [selectMin]
    split_ifs with h
    · refine List.Perm.trans (List.Perm.swap b _ _) ?_
      exact (ih c).cons b
    · exact List.Perm.refl _

theorem selectMin_le (bs : List BinValue) :
    ∀ (b : BinValue), ∀ c ∈ b :: bs, rawValueLe (selectMin b bs).1.head c.head := by
  induction bs with
  | nil =>
    intro b c hc
    simp only [List.mem_singleton] at hc
    subst hc
    simpa [selectMin] using rawValueLe_refl c.head
  | cons c cs ih =>
    intro b d hd
    simp only [selectMin]
    split_ifs with h
    · rcases List.mem_cons.1 hd with rfl | hd'
      · exact rawValueLe_of_cmp h
      · exact ih c d hd'
    · have hb : rawValueLe b.head (selectMin c cs).1.head := h
      rcases List.mem_cons.1 hd with rfl | hd'
      · exact rawValueLe_refl d.head
      · exact trans_of rawValueLe hb (ih c d hd')

theorem selectMin_mem_cons (b : BinValue) (bs : List BinValue) {c : BinValue}
    (h : c ∈ (selectMin b bs).2) : c ∈ b :: bs :=
  (selectMin_perm b bs).mem_iff.1 (List.mem_cons_of_mem _ h)

theorem binsSize_cons (b : BinValue) (bs : List BinValue) :
    binsSize (b :: bs) = 1 + b.rest.length + binsSize bs := by
  simp [binsSize]

theorem binsSize_reinsert (rest : List RawValue) (bs : List BinValue) :
    binsSize (reinsertBin rest bs) = rest.length + binsSize bs := by
  cases rest with
  | nil => simp [reinsertBin]
  | cons h t => simp [reinsertBin, binsSize_cons]; omega

theorem binsSize_perm {bs bs' : List BinValue} (h : bs.Perm bs') : binsSize bs = binsSize bs' := by
  unfold binsSize
  exact (h.map _).sum_eq

theorem reinsert_flatten (rest : List RawValue) (bs : List BinValue) :
    ((reinsertBin rest bs).map binElems).flatten = rest ++ (bs.map binElems).flatten := by
  cases rest with
  | nil => simp [reinsertBin]
  | cons h t => simp [reinsertBin, binElems]

theorem mergeBinsFuel_perm : ∀ (n : Nat) (bs : List BinValue), binsSize bs ≤ n →
    (mergeBinsFuel n bs).Perm (bs.map binElems).flatten := by
  intro n
  induction n with
  | zero =>
    intro bs h
    cases bs with
    | nil => simp [mergeBinsFuel]
    | cons b bs =>
      rw [binsSize_cons] at h
      omega
  | succ n ih =>
    intro bs h
    cases bs with
    | nil => simp [mergeBinsFuel]
    | cons b bs =>
      simp only [mergeBinsFuel]
      have hperm := selectMin_perm b bs
      have hsize : 1 + (selectMin b bs).1.rest.length + binsSize (selectMin b bs).2
          = binsSize (b :: bs) := by
        rw [← binsSize_cons]
        exact binsSize_perm hperm
      have hsz2 : binsSize (reinsertBin (selectMin b bs).1.rest (selectMin b bs).2) ≤ n := by
        rw [binsSize_reinsert]
        omega
      refine ((ih _ hsz2).cons _).trans ?_
      rw [reinsert_flatten]
      have hflat : (selectMin b bs).1.head ::
          ((selectMin b bs).1.rest ++ ((selectMin b bs).2.map binElems).flatten)
          = (((selectMin b bs).1 :: (selectMin b bs).2).map binElems).flatten := by
        simp [binElems]
      rw [hflat]
      exact (hperm.map binElems).flatten

theorem mergeBinsFuel_sorted : ∀ (n : Nat) (bs : List BinValue), binsSize bs ≤ n →
    (∀ b ∈ bs, List.Sorted rawValueLe (binElems b)) →
    List.Sorted rawValueLe (mergeBinsFuel n bs) := by
  intro n
  induction n with
  | zero =>
    intro bs _ _
    cases bs with
    | nil => simp [mergeBinsFuel]
    | cons b bs => simp [mergeBinsFuel]
  | succ n ih =>
    intro bs h hsorted
    cases bs with
    | nil => simp [mergeBinsFuel]
    | cons b bs =>
      simp only [mergeBinsFuel]
      have hperm := selectMin_perm b bs
      have hsize : 1 + (selectMin b bs).1.rest.length + binsSize (selectMin b bs).2
          = binsSize (b :: bs) := by
        rw [← binsSize_cons]
        exact binsSize_perm hperm
      have hsz2 : binsSize (reinsertBin (selectMin b bs).1.rest (selectMin b bs).2) ≤ n := by
        rw [binsSize_reinsert]
        omega
      have hminsorted : List.Sorted rawValueLe (binElems (selectMin b bs).1) :=
        hsorted _ (hperm.mem_iff.1 (List.mem_cons_self _ _))
      have hsorted2 : ∀ c ∈ reinsertBin (selectMin b bs).1.rest (selectMin b bs).2,
          List.Sorted rawValueLe (binElems c) := by
        intro c hc
        rcases hre : (selectMin b bs).1.rest with _ | ⟨rh, rt⟩
        · rw [hre] at hc
          exact hsorted _ (selectMin_mem_cons b bs hc)
        · rw [hre] at hc
          rcases List.mem_cons.1 hc with rfl | hc'
          · have := hminsorted
            rw [binElems, hre] at this
            exact this.of_cons
          · exact hsorted _ (selectMin_mem_cons b bs hc')
      rw [List.sorted_cons]
      refine ⟨?_, ih _ hsz2 hsorted2⟩
      intro y hy
      have hmem := (mergeBinsFuel_perm n _ hsz2).mem_iff.1 hy
      rw [reinsert_flatten] at hmem
      rcases List.mem_append.1 hmem with hrest | hflat
      · exact List.rel_of_sorted_cons hminsorted y hrest
      · obtain ⟨el, hel, hyel⟩ := List.mem_flatten.1 hflat
        obtain ⟨c, hc, rfl⟩ := List.mem_map.1 hel
        have h1 : rawValueLe (selectMin b bs).1.head c.head :=
          selectMin_le bs b c (selectMin_mem_cons b bs hc)
        rcases List.mem_cons.1 hyel with rfl | hyrest
        · exact h1
        · exact trans_of rawValueLe h1
            (List.rel_of_sorted_cons (hsorted c (selectMin_mem_cons b bs hc)) y hyrest)

theorem binsOfRuns_flatten (runs : List (List RawValue)) :
    ((binsOfRuns runs).map binElems).flatten = runs.flatten := by
  induction runs with
  | nil => rfl
  | cons r rs ih =>
    cases r with
    | nil => simpa [binsOfRuns, List.filterMap_cons] using ih
    | cons h t =>
      simp only [binsOfRuns, List.filterMap_cons] at *
      simpa [binElems] using ih

theorem binsOfRuns_sorted {runs : List (List RawValue)}
    (h : ∀ r ∈ runs, List.Sorted rawValueLe r) :
    ∀ b ∈ binsOfRuns runs, List.Sorted rawValueLe (binElems b) := by
  intro b hb
  obtain ⟨r, hr, hfr⟩ := List.mem_filterMap.1 hb
  cases r with
  | nil => simp at hfr
  | cons rh rt =>
    simp only [Option.some.injEq] at hfr
    subst hfr
    exact h _ hr

theorem mergeRuns_perm (runs : List (List RawValue)) : (mergeRuns runs).Perm runs.flatten := by
  unfold mergeRuns
  exact (mergeBinsFuel_perm _ _ (Nat.le_refl _)).trans (by rw [binsOfRuns_flatten])

theorem mergeRuns_sorted {runs : List (List RawValue)}
    (h : ∀ r ∈ runs, List.Sorted rawValueLe r) :
    List.Sorted rawValueLe (mergeRuns runs) :=
  mergeBinsFuel_sorted _ _ (Nat.le_refl _) (binsOfRuns_sorted h)

theorem mergedOf_sorted (runs : List (List RawValue)) :
    List.Sorted rawValueLe (mergedOf runs) := by
  refine mergeRuns_sorted ?_
  intro r hr
  obtain ⟨r', _, rfl⟩ := List.mem_map.1 hr
  exact sortRun_sorted r'

theorem mergedOf_perm (runs : List (List RawValue)) : (mergedOf runs).Perm runs.flatten := by
  refine (mergeRuns_perm _).trans ?_
  induction runs with
  | nil => exact List.Perm.refl _
  | cons r rs ih =>
    simp only [List.map_cons, List.flatten_cons]
    exact (sortRun_perm r).append ih

/-! ## Value grouping facts (`RowWriter_t::AddValue` / `NextValue`) -/

theorem rawValueLe_value {a b : RawValue} (h : rawValueLe a b) : a.value ≤ b.value := by
  simp only [rawValueLe, rawValueCmp] at h
  split_ifs at h <;> omega

theorem rawValueLe_rowid {a b : RawValue} (h : rawValueLe a b) (hv : a.value = b.value) :
    a.rowid ≤ b.rowid := by
  simp only [rawValueLe, rawValueCmp] at h
  split_ifs at h <;> omega

theorem groupsGo_ne_nil (l : List RawValue) : ∀ (v : Nat) (rs : List Nat),
    groupsGo v rs l ≠ [] := by
  induction l with
  | nil => intro v rs; simp [groupsGo]
  | cons p ps ih =>
    intro v rs
    simp only [groupsGo]
    split_ifs with h
    · exact ih _ _
    · simp

theorem groups_ne_nil {s : List RawValue} (h : s ≠ []) : groups s ≠ [] := by
  cases s with
  | nil => simp at h
  | cons p ps => exact groupsGo_ne_nil ps p.value [p.rowid]

theorem groupsGo_fst_mem (l : List RawValue) : ∀ (v : Nat) (rs : List Nat) (w : Nat),
    w ∈ (groupsGo v rs l).map Prod.fst ↔ (w = v ∨ ∃ p ∈ l, p.value = w) := by
  induction l with
  | nil =>
    intro v rs w
    simp [groupsGo]
  | cons p ps ih =>
    intro v rs w
    simp only [groupsGo]
    split_ifs with h
    · rw [ih]
      subst h
      simp only [List.mem_cons]
      constructor
      · rintro (rfl | ⟨q, hq, rfl⟩)
        · exact Or.inl rfl
        · exact Or.inr ⟨q, Or.inr hq, rfl⟩
      · rintro (rfl | ⟨q, rfl | hq, rfl⟩)
        · exact Or.inl rfl
        · exact Or.inl rfl
        · exact Or.inr ⟨q, hq, rfl⟩
    · simp only [List.map_cons, List.mem_cons, ih]
      constructor
      · rintro (rfl | rfl | ⟨q, hq, rfl⟩)
        · exact Or.inl rfl
        · exact Or.inr ⟨p, Or.inl rfl, rfl⟩
        · exact Or.inr ⟨q, Or.inr hq, rfl⟩
      · rintro (rfl | ⟨q, rfl | hq', rfl⟩)
        · exact Or.inl rfl
        · exact Or.inr (Or.inl rfl)
        · exact Or.inr (Or.inr ⟨q, hq', rfl⟩)

theorem groups_fst_mem {s : List RawValue} (w : Nat) :
    w ∈ (groups s).map Prod.fst ↔ ∃ p ∈ s, p.value = w := by
  cases s with
  | nil => simp [groups]
  | cons p ps =>
    rw [groups, groupsGo_fst_mem]
    constructor
    · rintro (rfl | ⟨q, hq, rfl⟩)
      · exact ⟨p, List.mem_cons_self p ps, rfl⟩
      · exact ⟨q, List.mem_cons_of_mem p hq, rfl⟩
    · rintro ⟨q, hq, rfl⟩
      rcases List.mem_cons.1 hq with rfl | hq'
      · exact Or.inl rfl
      · exact Or.inr ⟨q, hq', rfl⟩

theorem groupsGo_fst_sorted (l : List RawValue) : ∀ (v : Nat) (rs : List Nat),
    List.Sorted rawValueLe l → (∀ p ∈ l, v ≤ p.value) →
    List.Sorted (· < ·) ((groupsGo v rs l).map Prod.fst) ∧
    ∀ w ∈ (groupsGo v rs l).map Prod.fst, v ≤ w := by
  induction l with
  | nil =>
    intro v rs _ _
    simp [groupsGo]
  | cons p ps ih =>
    intro v rs hs hv
    have hs' : List.Sorted rawValueLe ps := hs.of_cons
    have hps : ∀ q ∈ ps, p.value ≤ q.value := fun q hq =>
      rawValueLe_value (List.rel_of_sorted_cons hs q hq)
    simp only [groupsGo]
    split_ifs with h
    · refine ih v (rs ++ [p.rowid]) hs' ?_
      intro q hq
      exact h ▸ hps q hq
    · have hvp : v < p.value :=
        lt_of_le_of_ne (hv p (List.mem_cons_self p ps)) h
      obtain ⟨ih1, ih2⟩ := ih p.value [p.rowid] hs' hps
      constructor
      · rw [List.map_cons, List.sorted_cons]
        exact ⟨fun w hw => lt_of_lt_of_le hvp (ih2 w hw), ih1⟩
      · intro w hw
        rw [List.map_cons, List.mem_cons] at hw
        rcases hw with rfl | hw'
        · exact Nat.le_refl _
        · exact Nat.le_of_lt (lt_of_lt_of_le hvp (ih2 w hw'))

theorem groups_fst_sorted {s : List RawValue} (hs : List.Sorted rawValueLe s) :
    List.Sorted (· < ·) ((groups s).map Prod.fst) := by
  cases s with
  | nil => simp [groups]
  | cons p ps =>
    rw [groups]
    exact (groupsGo_fst_sorted ps p.value [p.rowid] hs.of_cons
      (fun q hq => rawValueLe_value (List.rel_of_sorted_cons hs q hq))).1

theorem groupsGo_rows (l : List RawValue) : ∀ (v : Nat) (rs : List Nat),
    List.Sorted rawValueLe l → (∀ p ∈ l, v ≤ p.value) →
    ∀ g ∈ groupsGo v rs l,
      (g.1 = v → g.2 = rs ++ (l.filter (fun q => q.value = v)).map RawValue.rowid) ∧
      (g.1 ≠ v → g.2 = (l.filter (fun q => q.value = g.1)).map RawValue.rowid) := by
  induction l with
  | nil =>
    intro v rs _ _ g hg
    simp only [groupsGo, List.mem_singleton] at hg
    subst hg
    refine ⟨fun _ => by simp, fun hne => absurd rfl hne⟩
  | cons p ps ih =>
    intro v rs hs hv
    have hs' : List.Sorted rawValueLe ps := hs.of_cons
    have hps : ∀ q ∈ ps, p.value ≤ q.value := fun q hq =>
      rawValueLe_value (List.rel_of_sorted_cons hs q hq)
    simp only [groupsGo]
    split_ifs with h
    · intro g hg
      have hrec := ih v (rs ++ [p.rowid]) hs' (fun q hq => h ▸ hps q hq) g hg
      constructor
      · intro hgv
        rw [hrec.1 hgv, List.filter_cons, if_pos (by simp [← h])]
        simp
      · intro hgne
        rw [hrec.2 hgne, List.filter_cons, if_neg (by simp [← h]; omega)]
    · have hvp : v < p.value :=
        lt_of_le_of_ne (hv p (List.mem_cons_self p ps)) h
      intro g hg
      rcases List.mem_cons.1 hg with rfl | hg'
      · refine ⟨fun _ => ?_, fun hne => absurd rfl hne⟩
        have hnil : (p :: ps).filter (fun q => q.value = v) = [] := by
          rw [List.filter_eq_nil_iff]
          intro q hq
          rcases List.mem_cons.1 hq with rfl | hq'
          · simp
            omega
          · have : p.value ≤ q.value := hps q hq'
            simp
            omega
        rw [hnil]
        simp
      · have hge : p.value ≤ g.1 :=
          (groupsGo_fst_sorted ps p.value [p.rowid] hs' hps).2 g.1
            (List.mem_map_of_mem Prod.fst hg')
        have hgv : g.1 ≠ v := by omega
        have hrec := ih p.value [p.rowid] hs' hps g hg'
        refine ⟨fun h1 => absurd h1 hgv, fun _ => ?_⟩
        by_cases hgp : g.1 = p.value
        · rw [hrec.1 hgp, hgp, List.filter_cons, if_pos (by simp)]
          simp
        · rw [hrec.2 hgp, List.filter_cons, if_neg (by simp; omega)]

theorem groups_rows {s : List RawValue} (hs : List.Sorted rawValueLe s) :
    ∀ g ∈ groups s, g.2 = (s.filter (fun q => q.value = g.1)).map RawValue.rowid := by
  cases s with
  | nil => simp [groups]
  | cons p ps =>
    intro g hg
    rw [groups] at hg
    have hrec := groupsGo_rows ps p.value [p.rowid] hs.of_cons
      (fun q hq => rawValueLe_value (List.rel_of_sorted_cons hs q hq)) g hg
    by_cases hgp : g.1 = p.value
    · rw [hrec.1 hgp, hgp, List.filter_cons, if_pos (by simp)]
      simp
    · rw [hrec.2 hgp, List.filter_cons, if_neg (by simp; exact fun hh => hgp hh.symm)]

theorem sorted_filter_rowids {s : List RawValue} (hs : List.Sorted rawValueLe s) (v : Nat) :
    List.Sorted (· ≤ ·) ((s.filter (fun q => q.value = v)).map RawValue.rowid) := by
  unfold List.Sorted at *
  rw [List.pairwise_map]
  have hsub : List.Pairwise rawValueLe (s.filter (fun q => q.value = v)) :=
    hs.sublist (List.filter_sublist s)
  refine hsub.imp_of_mem ?_
  intro a b ha hb hab
  have hav : a.value = v := by simpa using List.of_mem_filter ha
  have hbv : b.value = v := by simpa using List.of_mem_filter hb
  exact rawValueLe_rowid hab (hav.trans hbv.symm)

/-! ## Chunking facts -/

theorem chunks128_nil : chunks128 ([] : List α) = [] := by
  simp [chunks128]

theorem chunks128_eq_of_ne_nil {l : List α} (h : l ≠ []) :
    chunks128 l = l.take 128 :: chunks128 (l.drop 128) := by
  cases l with
  | nil => exact absurd rfl h
  | cons x xs => rw [chunks128]

theorem chunks128_singleton_of_le {l : List α} (h1 : l ≠ []) (h2 : l.length ≤ 128) :
    chunks128 l = [l] := by
  rw [chunks128_eq_of_ne_nil h1, List.take_of_length_le h2, List.drop_of_length_le h2,
    chunks128_nil]

theorem chunks128_append (k : Nat) : ∀ (A B : List α), A.length = 128 * k →
    B ≠ [] → B.length ≤ 128 → chunks128 (A ++ B) = chunks128 A ++ [B] := by
  induction k with
  | zero =>
    intro A B hA hB1 hB2
    have : A = [] := List.eq_nil_of_length_eq_zero (by omega)
    subst this
    simpa [chunks128_nil] using chunks128_singleton_of_le hB1 hB2
  | succ k ih =>
    intro A B hA hB1 hB2
    have hAlen : 128 ≤ A.length := by omega
    have hAne : A ≠ [] := by
      intro hAeq
      rw [hAeq] at hA
      simp at hA
    have hABne : A ++ B ≠ [] := by
      intro h
      exact hAne (List.append_eq_nil.1 h).1
    rw [chunks128_eq_of_ne_nil hABne, chunks128_eq_of_ne_nil hAne]
    rw [List.take_append_of_le_length hAlen, List.drop_append_of_le_length hAlen]
    rw [ih (A.drop 128) B (by rw [List.length_drop]; omega) hB1 hB2]
    simp

/-! ## The writer state machine flushes exactly the 128-group chunks -/

theorem groupStarts_append (gs' : List (Nat × List Nat)) : ∀ (gs : List (Nat × List Nat)) (off : Nat),
    groupStarts off (gs ++ gs')
      = groupStarts off gs ++ groupStarts (off + ((gs.map fun g => g.2.length).sum)) gs' := by
  intro gs
  induction gs with
  | nil => intro off; simp [groupStarts]
  | cons g gs ih =>
    intro off
    simp only [List.cons_append, groupStarts, List.map_cons, List.sum_cons, List.append_eq]
    rw [ih]
    rw [show off + (g.2.length + (gs.map fun g => g.2.length).sum)
      = off + g.2.length + (gs.map fun g => g.2.length).sum by omega]

/-- `m_dRowStart` does not depend on the row-ids of the (still open) last
group. -/
theorem groupStarts_irrel (v : Nat) (rl rl' : List Nat) :
    ∀ (pend0 : List (Nat × List Nat)) (off : Nat),
    groupStarts off (pend0 ++ [(v, rl)]) = groupStarts off (pend0 ++ [(v, rl')]) := by
  intro pend0
  induction pend0 with
  | nil => intro off; simp [groupStarts]
  | cons g gs ih =>
    intro off
    simp only [List.cons_append, groupStarts, List.append_eq]
    rw [ih]

theorem flatten_map_snd_length (gs : List (Nat × List Nat)) :
    ((gs.map Prod.snd).flatten).length = ((gs.map fun g => g.2.length).sum) := by
  rw [List.length_flatten, List.map_map]
  rfl

theorem flatten_map_snd_append (gs gs' : List (Nat × List Nat)) :
    (((gs ++ gs').map Prod.snd).flatten) = ((gs.map Prod.snd).flatten) ++ ((gs'.map Prod.snd).flatten) := by
  rw [List.map_append, List.flatten_append]

theorem foldl_nextValue (l : List RawValue) :
    ∀ (flushed pend0 : List (Nat × List Nat)) (v : Nat) (rl : List Nat),
      128 ∣ flushed.length →
      pend0.length + 1 ≤ 128 →
      ∃ flushed' pend0' v' rl',
        128 ∣ flushed'.length ∧
        pend0'.length + 1 ≤ 128 ∧
        flushed ++ pend0 ++ groupsGo v rl l = flushed' ++ pend0' ++ [(v', rl')] ∧
        l.foldl nextValueState
          (⟨(pend0 ++ [(v, rl)]).map Prod.fst,
            groupStarts 0 (pend0 ++ [(v, rl)]),
            ((pend0 ++ [(v, rl)]).map Prod.snd).flatten, v⟩,
           (chunks128 flushed).map blockOfGroups)
          = (⟨(pend0' ++ [(v', rl')]).map Prod.fst,
              groupStarts 0 (pend0' ++ [(v', rl')]),
              ((pend0' ++ [(v', rl')]).map Prod.snd).flatten, v'⟩,
             (chunks128 flushed').map blockOfGroups) := by
  induction l with
  | nil =>
    intro flushed pend0 v rl hdvd hlen
    exact ⟨flushed, pend0, v, rl, hdvd, hlen, by simp [groupsGo], rfl⟩
  | cons p ps ih =>
    intro flushed pend0 v rl hdvd hlen
    by_cases hv : v = p.value
    · -- same value: the row-id joins the open group
      obtain ⟨flushed', pend0', v', rl', h1, h2, h3, h4⟩ :=
        ih flushed pend0 v (rl ++ [p.rowid]) hdvd hlen
      refine ⟨flushed', pend0', v', rl', h1, h2, ?_, ?_⟩
      · rw [← h3]
        simp only [groupsGo, if_pos hv]
      · rw [List.foldl_cons, ← h4]
        congr 1
        simp only [nextValueState]
        split_ifs
        have hirrel := groupStarts_irrel v rl (rl ++ [p.rowid]) pend0 0
        simp [flatten_map_snd_append, hirrel]
    · -- new value
      by_cases hfull : pend0.length + 1 < 128
      · -- room in the current block: no flush, AddValue
        obtain ⟨flushed', pend0', v', rl', h1, h2, h3, h4⟩ :=
          ih flushed (pend0 ++ [(v, rl)]) p.value [p.rowid] hdvd
            (by rw [List.length_append, List.length_singleton]; omega)
        refine ⟨flushed', pend0', v', rl', h1, h2, ?_, ?_⟩
        · rw [← h3]
          simp only [groupsGo, if_neg hv]
          simp
        · rw [List.foldl_cons, ← h4]
          congr 1
          simp only [nextValueState]
          split_ifs
          simp only [flushValueState]
          split_ifs with hc2
          · simp only [addValueState]
            simp [groupStarts_append, groupStarts, flatten_map_snd_append,
              flatten_map_snd_length, Function.comp_def]
          · exfalso
            apply hc2
            simp only [List.length_map, List.length_append, List.length_singleton,
              valuesPerBlock]
            omega
      · -- current block holds 128 groups: FlushBlock then AddValue
        have hfull' : pend0.length + 1 = 128 := by omega
        obtain ⟨flushed', pend0', v', rl', h1, h2, h3, h4⟩ :=
          ih (flushed ++ (pend0 ++ [(v, rl)])) [] p.value [p.rowid]
            (by
              rw [List.length_append, List.length_append, List.length_singleton]
              rw [show pend0.length + 1 = 128 from hfull']
              exact Nat.dvd_add hdvd dvd_rfl)
            (by norm_num)
        refine ⟨flushed', pend0', v', rl', h1, h2, ?_, ?_⟩
        · rw [← h3]
          simp only [groupsGo, if_neg hv]
          simp
        · rw [List.foldl_cons, ← h4]
          congr 1
          simp only [nextValueState]
          split_ifs
          simp only [flushValueState]
          split_ifs with hc2
          · exfalso
            simp only [List.length_map, List.length_append, List.length_singleton,
              valuesPerBlock] at hc2
            omega
          · simp only [flushBlockState]
            split_ifs with hc3
            · exfalso
              simp at hc3
            · simp only [addValueState]
              have happ := chunks128_append (flushed.length / 128) flushed (pend0 ++ [(v, rl)])
                (by
                  obtain ⟨c, hc⟩ := hdvd
                  rw [hc, Nat.mul_div_cancel_left c (by norm_num)])
                (by simp)
                (by rw [List.length_append, List.length_singleton]; omega)
              rw [happ, List.map_append]
              simp [blockOfGroups, groupStarts]

theorem writerRun_blocks (input : List RawValue) :
    (writerRun input).2 = (chunks128 (groups input)).map blockOfGroups := by
  cases input with
  | nil =>
    simp [writerRun, flushBlockState, initWriterState, groups, chunks128_nil]
  | cons p ps =>
    simp only [writerRun, groups]
    obtain ⟨flushed', pend0', v', rl', h1, h2, h3, h4⟩ :=
      foldl_nextValue ps [] [] p.value [p.rowid] (by simp) (by norm_num)
    have h0 : (addValueState initWriterState p, ([] : List EncBlock))
        = (⟨(([] : List (Nat × List Nat)) ++ [(p.value, [p.rowid])]).map Prod.fst,
            groupStarts 0 (([] : List (Nat × List Nat)) ++ [(p.value, [p.rowid])]),
            ((([] : List (Nat × List Nat)) ++ [(p.value, [p.rowid])]).map Prod.snd).flatten,
            p.value⟩,
           (chunks128 ([] : List (Nat × List Nat))).map blockOfGroups) := by
      simp [addValueState, initWriterState, groupStarts, chunks128_nil]
    rw [h0, h4]
    simp only [flushBlockState]
    split_ifs with hc
    · exfalso
      simp at hc
    · have hgs : groupsGo p.value [p.rowid] ps = flushed' ++ (pend0' ++ [(v', rl')]) := by
        have h3' := h3
        simp only [List.nil_append] at h3'
        rw [h3', List.append_assoc]
      have happ := chunks128_append (flushed'.length / 128) flushed' (pend0' ++ [(v', rl')])
        (by
          obtain ⟨c, hc2⟩ := h1
          rw [hc2, Nat.mul_div_cancel_left c (by norm_num)])
        (by simp)
        (by rw [List.length_append, List.length_singleton]; omega)
      rw [hgs, happ, List.map_append]
      simp [blockOfGroups]

/-! ## Per-group characterization of `FlushBlock`'s packing loop -/

theorem getD_append_length (pre l : List Nat) (d : Nat) :
    (pre ++ l).getD pre.length d = l.headD d := by
  induction pre with
  | nil => cases l <;> simp
  | cons x xs ih => simpa using ih

theorem packRowsStep_spec (codec : List Nat → List Nat) (rows pre g2 post : List Nat)
    (hrows : rows = pre ++ g2 ++ post) (hg : g2 ≠ []) (acc : PackOut) :
    packRowsStep codec rows pre.length (pre.length + g2.length) acc
      = ⟨acc.types ++ [groupTag g2],
         acc.starts ++ [if g2.length = 1 then g2.headD 0 else acc.packed.length],
         acc.packed ++ groupPayload codec g2,
         acc.lenDelta && (g2.length != 1)⟩ := by
  have hlen : 1 ≤ g2.length := List.length_pos.2 hg
  simp only [packRowsStep, Nat.add_sub_cancel_left]
  by_cases h1 : g2.length = 1
  · rw [if_pos h1]
    have hget : rows.getD pre.length 0 = g2.headD 0 := by
      rw [hrows, List.append_assoc, getD_append_length]
      cases g2 with
      | nil => exact absurd rfl hg
      | cons a t => rfl
    rw [hget]
    simp [groupTag, groupPayload, h1]
  · rw [if_neg h1]
    have hslice : (rows.drop pre.length).take g2.length = g2 := by
      rw [hrows, List.append_assoc, List.drop_left, List.take_left]
    have hbne : (g2.length != 1) = true := by simpa [bne_iff_ne] using h1
    by_cases h2 : g2.length ≤ valuesPerBlock
    · rw [if_pos h2, hslice]
      simp only [groupTag, groupPayload, if_neg h1, if_pos h2, hbne, Bool.and_true]
    · rw [if_neg h2]
      have hvb : valuesPerBlock = 128 := rfl
      have hmap : (List.range ((g2.length + valuesPerBlock - 1) / valuesPerBlock)).map
            (fun b => encodeRowsBlockBytes codec
              ((rows.drop (pre.length + b * valuesPerBlock)).take
                (if b = (g2.length + valuesPerBlock - 1) / valuesPerBlock - 1
                 then g2.length - b * valuesPerBlock else valuesPerBlock)))
          = (List.range ((g2.length + valuesPerBlock - 1) / valuesPerBlock)).map
            (fun b => encodeRowsBlockBytes codec
              ((g2.drop (b * valuesPerBlock)).take
                (if b = (g2.length + valuesPerBlock - 1) / valuesPerBlock - 1
                 then g2.length - b * valuesPerBlock else valuesPerBlock))) := by
        refine List.map_congr_left ?_
        intro b hb
        rw [List.mem_range] at hb
        rw [hvb] at hb ⊢
        congr 1
        have hble : b * 128 ≤ g2.length := by
          rw [hvb] at h2
          omega
        have hdrop : rows.drop (pre.length + b * 128) = g2.drop (b * 128) ++ post := by
          rw [hrows, List.append_assoc, List.drop_append,
            List.drop_append_of_le_length hble]
        rw [hdrop]
        by_cases hlast : b = (g2.length + 128 - 1) / 128 - 1
        · rw [if_pos hlast, List.take_append_of_le_length (by rw [List.length_drop])]
        · rw [if_neg hlast, List.take_append_of_le_length (by
            rw [List.length_drop]
            rw [hvb] at h2
            omega)]
      rw [hmap]
      simp only [groupTag, groupPayload, if_neg h1, if_neg h2, hbne, Bool.and_true,
        List.append_assoc]

theorem packRowsLoop_spec (codec : List Nat → List Nat) :
    ∀ (gs : List (Nat × List Nat)) (pre : List Nat) (acc : PackOut),
      (∀ g ∈ gs, g.2 ≠ []) →
      packRowsLoop codec (pre ++ (gs.map Prod.snd).flatten) (groupStarts pre.length gs) acc
        = ⟨acc.types ++ gs.map (fun g => groupTag g.2),
           acc.starts ++ specStarts codec acc.packed.length gs,
           acc.packed ++ (gs.map fun g => groupPayload codec g.2).flatten,
           acc.lenDelta && gs.all fun g => g.2.length != 1⟩ := by
  intro gs
  induction gs with
  | nil =>
    intro pre acc h
    simp [packRowsLoop, groupStarts, specStarts]
  | cons g gs' ih =>
    intro pre acc h
    have hg : g.2 ≠ [] := h g (List.mem_cons_self g gs')
    have hstep := packRowsStep_spec codec (pre ++ ((g :: gs').map Prod.snd).flatten)
      pre g.2 ((gs'.map Prod.snd).flatten) (by simp) hg acc
    cases gs' with
    | nil =>
      simp only [groupStarts, packRowsLoop]
      have hlen : (pre ++ ((g :: ([] : List (Nat × List Nat))).map Prod.snd).flatten).length
          = pre.length + g.2.length := by
        simp
      rw [hlen, hstep]
      simp [specStarts, groupStarts]
    | cons g'' gs'' =>
      simp only [groupStarts, packRowsLoop]
      rw [hstep]
      rw [show pre ++ ((g :: g'' :: gs'').map Prod.snd).flatten
          = (pre ++ g.2) ++ ((g'' :: gs'').map Prod.snd).flatten by simp]
      rw [show pre.length + g.2.length = (pre ++ g.2).length by simp]
      have hfold : groupStarts (pre ++ g.2).length (g'' :: gs'')
          = (pre ++ g.2).length :: groupStarts ((pre ++ g.2).length + g''.2.length) gs'' := rfl
      rw [← hfold]
      rw [ih (pre ++ g.2) _ (fun q hq => h q (List.mem_cons_of_mem _ hq))]
      simp only [List.map_cons, List.all_cons, List.flatten_cons, specStarts]
      refine PackOut.mk.injEq .. |>.mpr ⟨?_, ?_, ?_, ?_⟩
      · simp
      · simp [List.length_append]
      · simp
      · rw [Bool.and_assoc]

theorem packRows_spec (codec : List Nat → List Nat) (gs : List (Nat × List Nat))
    (h : ∀ g ∈ gs, g.2 ≠ []) :
    packRows codec (blockOfGroups gs)
      = ⟨gs.map (fun g => groupTag g.2),
         specStarts codec 0 gs,
         (gs.map fun g => groupPayload codec g.2).flatten,
         gs.all fun g => g.2.length != 1⟩ := by
  unfold packRows blockOfGroups
  have hspec := packRowsLoop_spec codec gs [] ⟨[], [], [], true⟩ h
  simpa using hspec

/-! ## Assembled pipeline facts -/

theorem chunks128_flatten_aux : ∀ (n : Nat) (l : List α), l.length ≤ n →
    (chunks128 l).flatten = l := by
  intro n
  induction n with
  | zero =>
    intro l h
    have hl : l = [] := List.eq_nil_of_length_eq_zero (by omega)
    subst hl
    simp [chunks128_nil]
  | succ n ih =>
    intro l h
    cases l with
    | nil => simp [chunks128_nil]
    | cons x xs =>
      rw [chunks128_eq_of_ne_nil (by simp), List.flatten_cons]
      by_cases hle : (x :: xs).length ≤ 128
      · rw [List.drop_of_length_le hle, chunks128_nil, List.flatten_nil,
          List.take_of_length_le hle, List.append_nil]
      · rw [ih ((x :: xs).drop 128) (by rw [List.length_drop]; omega)]
        exact List.take_append_drop _ _

theorem chunks128_flatten (l : List α) : (chunks128 l).flatten = l :=
  chunks128_flatten_aux l.length l (Nat.le_refl _)

theorem pgmValuesFile_eq (input : List RawValue) :
    pgmValuesFile input = (groups input).map Prod.fst := by
  unfold pgmValuesFile
  rw [writerRun_blocks]
  rw [List.map_map]
  have hcomp : (EncBlock.values ∘ blockOfGroups) = fun gs => gs.map Prod.fst := rfl
  rw [hcomp]
  rw [← List.map_flatten, chunks128_flatten]

/-- Two strictly sorted lists with the same members are equal. -/
theorem sorted_lt_eq_of_mem_iff : ∀ {l₁ l₂ : List Nat}, List.Sorted (· < ·) l₁ →
    List.Sorted (· < ·) l₂ → (∀ x, x ∈ l₁ ↔ x ∈ l₂) → l₁ = l₂ := by
  intro l₁
  induction l₁ with
  | nil =>
    intro l₂ _ _ hmem
    cases l₂ with
    | nil => rfl
    | cons y t => exact absurd ((hmem y).2 (List.mem_cons_self y t)) (by simp)
  | cons x t ih =>
    intro l₂ h1 h2 hmem
    cases l₂ with
    | nil => exact absurd ((hmem x).1 (List.mem_cons_self x t)) (by simp)
    | cons y t₂ =>
      have hxy : x = y := by
        have hx2 : x ∈ y :: t₂ := (hmem x).1 (List.mem_cons_self x t)
        have hy1 : y ∈ x :: t := (hmem y).2 (List.mem_cons_self y t₂)
        rcases List.mem_cons.1 hx2 with h | hx2'
        · exact h
        · have hyx : y < x := List.rel_of_sorted_cons h2 x hx2'
          rcases List.mem_cons.1 hy1 with h | hy1'
          · omega
          · have := List.rel_of_sorted_cons h1 y hy1'
            omega
      subst hxy
      congr 1
      apply ih h1.of_cons h2.of_cons
      intro z
      constructor
      · intro hz
        have hz2 := (hmem z).1 (List.mem_cons_of_mem _ hz)
        rcases List.mem_cons.1 hz2 with rfl | h
        · exact absurd (List.rel_of_sorted_cons h1 z hz) (lt_irrefl z)
        · exact h
      · intro hz
        have hz1 := (hmem z).2 (List.mem_cons_of_mem _ hz)
        rcases List.mem_cons.1 hz1 with rfl | h
        · exact absurd (List.rel_of_sorted_cons h2 z hz) (lt_irrefl z)
        · exact h

/-! ## Index access helpers for the packing characterization -/

theorem getD_map_of_lt {β : Type} (f : (Nat × List Nat) → β) (d : β) :
    ∀ (gs : List (Nat × List Nat)) (i : Nat), i < gs.length →
    (gs.map f).getD i d = f (gs.getD i (0, [])) := by
  intro gs
  induction gs with
  | nil => intro i hi; simp at hi
  | cons g gs ih =>
    intro i hi
    cases i with
    | zero => simp
    | succ j =>
      simp only [List.map_cons, List.getD_cons_succ]
      exact ih j (by simpa using hi)

theorem specStarts_getD (codec : List Nat → List Nat) :
    ∀ (gs : List (Nat × List Nat)) (pos i : Nat), i < gs.length →
    (specStarts codec pos gs).getD i 0
      = if (gs.getD i (0, [])).2.length = 1 then (gs.getD i (0, [])).2.headD 0
        else pos + (((gs.take i).map fun g => groupPayload codec g.2).flatten).length := by
  intro gs
  induction gs with
  | nil => intro pos i hi; simp at hi
  | cons g gs ih =>
    intro pos i hi
    cases i with
    | zero => simp [specStarts]
    | succ j =>
      simp only [specStarts, List.getD_cons_succ]
      rw [ih (pos + (groupPayload codec g.2).length) j (by simpa using hi)]
      by_cases h1 : (gs.getD j (0, [])).2.length = 1
      · rw [if_pos h1, if_pos h1]
      · rw [if_neg h1, if_neg h1]
        simp only [List.take_succ_cons, List.map_cons, List.flatten_cons, List.length_append]
        omega

theorem flatten_extract : ∀ (L : List (List Nat)) (i : Nat), i < L.length →
    ((L.flatten).drop ((L.take i).flatten.length)).take (L.getD i []).length = L.getD i [] := by
  intro L
  induction L with
  | nil => intro i hi; simp at hi
  | cons x L ih =>
    intro i hi
    cases i with
    | zero =>
      simp only [List.take_zero, List.flatten_nil, List.length_nil, List.drop_zero,
        List.getD_cons_zero, List.flatten_cons]
      exact List.take_left x L.flatten
    | succ j =>
      simp only [List.take_succ_cons, List.flatten_cons, List.getD_cons_succ,
        List.length_append]
      rw [List.drop_append]
      exact ih j (by simpa using hi)

/-! ## Delta round trip and block-offset monotonicity -/

theorem unDeltasGo_computeDeltasGo : ∀ (l : List Nat) (p : Nat),
    (∀ x ∈ l.head?, p ≤ x) → List.Chain' (· ≤ ·) l →
    unDeltasGo p (computeDeltasGo p l) = l := by
  intro l
  induction l with
  | nil => intro p _ _; rfl
  | cons x xs ih =>
    intro p hp hc
    simp only [computeDeltasGo, unDeltasGo]
    have hpx : p ≤ x := hp x rfl
    have hx : p + (x - p) = x := by omega
    rw [hx]
    congr 1
    refine ih x ?_ ?_
    · intro y hy
      cases xs with
      | nil => simp at hy
      | cons z zs =>
        simp only [List.head?_cons, Option.mem_some_iff] at hy
        subst hy
        exact (List.chain'_cons.1 hc).1
    · exact hc.tail

theorem unDeltas_computeDeltas {l : List Nat} (h : List.Chain' (· ≤ ·) l) :
    unDeltas (computeDeltas l) = l := by
  cases l with
  | nil => rfl
  | cons x xs =>
    simp only [computeDeltas, unDeltas]
    congr 1
    refine unDeltasGo_computeDeltasGo xs x ?_ h.tail
    intro y hy
    cases xs with
    | nil => simp at hy
    | cons z zs =>
      simp only [List.head?_cons, Option.mem_some_iff] at hy
      subst hy
      exact (List.chain'_cons.1 h).1

theorem blocksOffStartsGo_chain_le (attrs : List (List (List RawValue))) :
    ∀ (pos : Nat), List.Chain' (· ≤ ·) (blocksOffStartsGo pos attrs) ∧
      ∀ x ∈ blocksOffStartsGo pos attrs, pos ≤ x := by
  induction attrs with
  | nil => intro pos; simp [blocksOffStartsGo]
  | cons a rest ih =>
    intro pos
    obtain ⟨ihc, ihge⟩ := ih (pos + 8 * numBlocksOfAttr a)
    constructor
    · rw [blocksOffStartsGo]
      cases hrest : blocksOffStartsGo (pos + 8 * numBlocksOfAttr a) rest with
      | nil => simp
      | cons y ys =>
        rw [List.chain'_cons]
        refine ⟨?_, hrest ▸ ihc⟩
        have := ihge y (by rw [hrest]; exact List.mem_cons_self y ys)
        omega
    · intro x hx
      rw [blocksOffStartsGo] at hx
      rcases List.mem_cons.1 hx with rfl | hx'
      · exact Nat.le_refl _
      · have := ihge x hx'
        omega

theorem numBlocksOfAttr_pos {runs : List (List RawValue)} (h : runs.flatten ≠ []) :
    1 ≤ numBlocksOfAttr runs := by
  unfold numBlocksOfAttr
  rw [writerRun_blocks]
  have hmerged : mergedOf runs ≠ [] := by
    intro hm
    have hperm := mergedOf_perm runs
    rw [hm] at hperm
    exact h (hperm.symm.eq_nil)
  have hgr : groups (mergedOf runs) ≠ [] := groups_ne_nil hmerged
  rw [chunks128_eq_of_ne_nil hgr]
  simp

theorem blocksOffStartsGo_chain_lt (attrs : List (List (List RawValue)))
    (h : ∀ a ∈ attrs, a.flatten ≠ []) :
    ∀ (pos : Nat), List.Chain' (· < ·) (blocksOffStartsGo pos attrs) := by
  induction attrs with
  | nil => intro pos; simp [blocksOffStartsGo]
  | cons a rest ih =>
    intro pos
    rw [blocksOffStartsGo]
    cases hrest : blocksOffStartsGo (pos + 8 * numBlocksOfAttr a) rest with
    | nil => simp
    | cons y ys =>
      rw [List.chain'_cons]
      constructor
      · have hge := (blocksOffStartsGo_chain_le rest (pos + 8 * numBlocksOfAttr a)).2 y
          (by rw [hrest]; exact List.mem_cons_self y ys)
        have hpos := numBlocksOfAttr_pos (h a (List.mem_cons_self a rest))
        omega
      · rw [← hrest]
        exact ih (fun x hx => h x (List.mem_cons_of_mem a hx)) _

/-- The spec's claimed block layout is exactly 4 bytes (one raw `uint32`
length prefix) longer than what `FlushBlock` writes. -/
theorem flushBlockOutBytesClaimed_length (codec : List Nat → List Nat) (b : EncBlock)
    (h : b.values ≠ []) :
    (flushBlockOutBytesClaimed codec b).length = (flushBlockOutBytes codec b).length + 4 := by
  unfold flushBlockOutBytes flushBlockOutBytesClaimed writeVectorRawLen32Bytes u32LEBytes
  rw [if_neg h, if_neg h]
  simp only [List.length_append, List.length_cons, List.length_nil]
  omega

/-! # Claim theorems -/

/-- **C8**: `ByteCodec_c::EncodeValue` emits the value's 7-bit groups
most-significant first, with the high bit set on every byte except the last
(high bit = 1 means more bytes follow), and `DecodeValue` is its inverse:
for every `uint64` value `v`, `decodeValue (encodeValue v) = v`. -/
theorem c8_varint_msb_roundtrip (v : Nat) (_hv : v < 2 ^ 64) :
    decodeValue (encodeValue v) = v ∧
    (encodeValue v).length = calcPackedLen v ∧
    ∀ i, i < calcPackedLen v →
      (encodeValue v).getD i 0 =
        if i = calcPackedLen v - 1 then (v >>> (7 * (calcPackedLen v - 1 - i))) % 128
        else (v >>> (7 * (calcPackedLen v - 1 - i))) % 128 + 128 :=
  ⟨decodeValue_encodeValue v, encodeValue_length v, fun i hi => encodeValue_getD v i hi⟩

/-- Witness for C8 at `v = 300`. -/
theorem c8_varint_msb_roundtrip_witness :
    (300 : Nat) < 2 ^ 64 ∧ decodeValue (encodeValue 300) = 300 :=
  ⟨by norm_num, (c8_varint_msb_roundtrip 300 (by norm_num)).1⟩

/-- **C4** (counterexample): the claim that overwriting the header's
meta-offset placeholder is the final step of `done()`, performed only after
the meta record and both staging files have been appended, is false:
`WriteMeta` patches the header *first*, and immediately afterwards the file
has `meta_offset ≠ 0` while the meta trailer is not yet written (violating
the claimed safety invariant), shown here at the concrete offset 42. -/
theorem c4_counterexample :
    writeMetaEvents.getLast? ≠ some MetaEvent.patchHeader ∧
    ¬ (∀ st ∈ writeMetaStates 42, st.metaOff ≠ 0 → metaTrailerComplete st = true) := by
  constructor
  · decide
  · decide

/-- **C4** (amended): `Builder_c::WriteMeta` performs its write steps in the
order: patch the header's meta-offset placeholder first, then write the meta
record, then append the PGM staging file, then the block-offsets staging
file; only after `WriteMeta` completes is the trailer fully present, and the
header slot only ever holds 0 or the final meta offset. -/
theorem c4_write_order_amended (uMetaOff : Nat) :
    writeMetaEvents = [MetaEvent.patchHeader, MetaEvent.writeMetaRecord,
      MetaEvent.appendPgm, MetaEvent.appendBlocksOffsets] ∧
    writeMetaEvents.head? = some MetaEvent.patchHeader ∧
    (writeMetaStates uMetaOff).getLast? = some ⟨uMetaOff, true, true, true⟩ ∧
    ∀ st ∈ writeMetaStates uMetaOff, st.metaOff = 0 ∨ st.metaOff = uMetaOff := by
  refine ⟨rfl, rfl, rfl, ?_⟩
  intro st hst
  simp only [writeMetaStates, writeMetaEvents, List.scanl, stepMetaEvent, List.mem_cons,
    List.not_mem_nil, or_false] at hst
  rcases hst with rfl | rfl | rfl | rfl | rfl
  · exact Or.inl rfl
  · exact Or.inr rfl
  · exact Or.inr rfl
  · exact Or.inr rfl
  · exact Or.inr rfl

/-- Witness for the amended C4 at `uMetaOff = 42`. -/
theorem c4_write_order_amended_witness :
    (writeMetaStates 42).getLast? = some ⟨42, true, true, true⟩ :=
  (c4_write_order_amended 42).2.2.1

/-- `iRowSize` is zero exactly when no attribute got a raw writer. -/
theorem rowSizeOf_eq_zero_iff (attrs : List AttrType) :
    rowSizeOf attrs = 0 ↔ ∀ a ∈ attrs, writerItemSize a = none := by
  induction attrs with
  | nil => simp [rowSizeOf]
  | cons a rest ih =>
    unfold rowSizeOf at *
    cases a <;> simp [writerItemSize, List.filterMap_cons, ih]

/-- **C9**: `Builder_c::Setup` computes the flush threshold as
`max(1000, iMemoryLimit / 3 / iRowSize)` with `iRowSize` the sum of per-pair
item sizes of the configured writers, and has no guard against
`iRowSize = 0`: when no attribute has a supported type (including the empty
list) the divisor is zero and the C++ division is undefined behaviour
(modelled as `none`); `Setup` is total exactly when some attribute got a
writer. -/
theorem c9_setup_divisor (attrs : List AttrType) (iMemoryLimit : Int) :
    (rowSizeOf attrs = 0 ↔ ∀ a ∈ attrs, writerItemSize a = none) ∧
    (setupMaxRows iMemoryLimit attrs = none ↔ rowSizeOf attrs = 0) ∧
    (rowSizeOf attrs ≠ 0 →
      setupMaxRows iMemoryLimit attrs
        = some (max 1000 (Int.tdiv (Int.tdiv iMemoryLimit 3) (rowSizeOf attrs)))) := by
  refine ⟨rowSizeOf_eq_zero_iff attrs, ?_, ?_⟩
  · simp only [setupMaxRows]
    split_ifs with h
    · simp only [true_iff]
      exact_mod_cast h
    · simp only [false_iff]
      push_cast at h
      intro hc
      exact h (by exact_mod_cast hc)
  · intro h
    simp only [setupMaxRows]
    rw [if_neg (by exact_mod_cast h)]

/-- Witness for C9: the empty attribute list has `iRowSize = 0` and an
undefined threshold; a single `uint32` attribute has `iRowSize = 8` and the
threshold `max 1000 (30000000 / 3 / 8) = 1250000`. -/
theorem c9_setup_divisor_witness :
    setupMaxRows 30000000 ([] : List AttrType) = none ∧
    setupMaxRows 30000000 [AttrType.uint32] = some 1250000 := by
  constructor
  · exact (c9_setup_divisor [] 30000000).2.1.mpr (by decide)
  · rw [(c9_setup_divisor [AttrType.uint32] 30000000).2.2 (by decide)]
    decide

/-- **C10**: each of the three `Builder_c::SetAttr` overloads is a silent
no-op when the attribute index is out of range of the writer table (negative
indices convert to huge `size_t` values and fail the bound check) or when
the slot holds no writer: no error is reported and the whole builder state,
including every other attribute's collector, is unchanged. -/
theorem c10_setattr_silent_noop (st : BuilderState) (iAttr : Int)
    (h : st.writers.length ≤ intToSizeT iAttr ∨
      st.writers.getD (intToSizeT iAttr) none = none)
    (tAttr : Int) (hash : List Nat → Int) (data : List Nat) (arr : List Int) :
    builderSetAttrInt st iAttr tAttr = st ∧
    builderSetAttrBytes hash st iAttr data = st ∧
    builderSetAttrArray st iAttr arr = st := by
  have hnone : st.writers.getD (intToSizeT iAttr) none = none := by
    rcases h with h | h
    · exact List.getD_eq_default _ _ h
    · exact h
  refine ⟨?_, ?_, ?_⟩
  · unfold builderSetAttrInt
    rw [hnone]
  · unfold builderSetAttrBytes
    rw [hnone]
  · unfold builderSetAttrArray
    rw [hnone]

/-- Witness for C10: `SetAttr(-1, …)` and `SetAttr(1, …)` (a gap slot) leave
the two-slot builder state untouched. -/
theorem c10_setattr_silent_noop_witness :
    builderSetAttrInt ⟨7, [some [], none]⟩ (-1) 99 = ⟨7, [some [], none]⟩ ∧
    builderSetAttrInt ⟨7, [some [], none]⟩ 1 99 = ⟨7, [some [], none]⟩ := by
  constructor
  · exact (c10_setattr_silent_noop ⟨7, [some [], none]⟩ (-1)
      (Or.inl (by decide)) 99 (fun _ => 0) [] []).1
  · exact (c10_setattr_silent_noop ⟨7, [some [], none]⟩ 1
      (Or.inr (by decide)) 99 (fun _ => 0) [] []).1

/-- **C1**: for every input stream of (row-id, value) pairs and every split
of that stream into runs (any memory limit admitting at least one pair per
flush produces such a split), the distinct-value sequence the merge/encode
pass emits — which is exactly what `FlushBlock` writes to the PGM-values
side file — equals `sorted(distinct(input values))` in ascending order,
independently of the split. -/
theorem c1_sorted_distinct_values (runs : List (List RawValue)) :
    pgmValuesFile (mergedOf runs)
      = List.insertionSort (· ≤ ·) (runs.flatten.map RawValue.value).dedup ∧
    List.Sorted (· < ·) (pgmValuesFile (mergedOf runs)) ∧
    (∀ w, w ∈ pgmValuesFile (mergedOf runs) ↔ ∃ p ∈ runs.flatten, p.value = w) := by
  have hsorted := mergedOf_sorted runs
  have hperm := mergedOf_perm runs
  have heq := pgmValuesFile_eq (mergedOf runs)
  have hlt : List.Sorted (· < ·) (pgmValuesFile (mergedOf runs)) := by
    rw [heq]
    exact groups_fst_sorted hsorted
  have hmem : ∀ w, w ∈ pgmValuesFile (mergedOf runs) ↔ ∃ p ∈ runs.flatten, p.value = w := by
    intro w
    rw [heq, groups_fst_mem]
    constructor
    · rintro ⟨p, hp, rfl⟩
      exact ⟨p, hperm.mem_iff.1 hp, rfl⟩
    · rintro ⟨p, hp, rfl⟩
      exact ⟨p, hperm.mem_iff.2 hp, rfl⟩
  refine ⟨?_, hlt, hmem⟩
  have hsortedR : List.Sorted (· < ·)
      (List.insertionSort (· ≤ ·) (runs.flatten.map RawValue.value).dedup) := by
    have h1 : List.Sorted (· ≤ ·)
        (List.insertionSort (· ≤ ·) (runs.flatten.map RawValue.value).dedup) :=
      List.sorted_insertionSort _ _
    have h2 : (List.insertionSort (· ≤ ·) (runs.flatten.map RawValue.value).dedup).Nodup :=
      (List.perm_insertionSort _ _).symm.nodup (List.nodup_dedup _)
    exact (List.Pairwise.and h1 h2).imp fun hab => lt_of_le_of_ne hab.1 hab.2
  have hmemR : ∀ w, w ∈ List.insertionSort (· ≤ ·) (runs.flatten.map RawValue.value).dedup
      ↔ ∃ p ∈ runs.flatten, p.value = w := by
    intro w
    rw [List.mem_insertionSort, List.mem_dedup, List.mem_map]
  exact sorted_lt_eq_of_mem_iff hlt hsortedR fun w => (hmem w).trans (hmemR w).symm

/-- **C2**: the merged pair stream forwarded to the block encoder is
non-decreasing in `(value, row_id)` with equal values adjacent (the group
values are strictly increasing), and for every distinct value `v` the
posting emitted for `v` is exactly the multiset of row-ids the input paired
with `v`, in ascending row-id order (duplicates only if the input had
duplicate `(v, row-id)` pairs). -/
theorem c2_postings (runs : List (List RawValue)) :
    List.Sorted rawValueLe (mergedOf runs) ∧
    List.Sorted (· < ·) ((groups (mergedOf runs)).map Prod.fst) ∧
    ∀ v, (∃ p ∈ runs.flatten, p.value = v) →
      ∃ rows, (v, rows) ∈ groups (mergedOf runs) ∧
        rows = List.insertionSort (· ≤ ·)
          (((runs.flatten.filter fun p => p.value = v)).map RawValue.rowid) := by
  have hsorted := mergedOf_sorted runs
  have hperm := mergedOf_perm runs
  refine ⟨hsorted, groups_fst_sorted hsorted, ?_⟩
  intro v hv
  have hvm : ∃ p ∈ mergedOf runs, p.value = v := by
    obtain ⟨p, hp, hpv⟩ := hv
    exact ⟨p, hperm.mem_iff.2 hp, hpv⟩
  have hvmem : v ∈ (groups (mergedOf runs)).map Prod.fst := (groups_fst_mem v).2 hvm
  obtain ⟨g, hg, hgv⟩ := List.mem_map.1 hvmem
  refine ⟨g.2, ?_, ?_⟩
  · rw [← hgv, Prod.mk.eta]
    exact hg
  · have hrows := groups_rows hsorted g hg
    rw [hrows, hgv]
    have hpermv : (((mergedOf runs).filter fun p => p.value = v).map RawValue.rowid).Perm
        (List.insertionSort (· ≤ ·)
          ((runs.flatten.filter fun p => p.value = v).map RawValue.rowid)) := by
      refine List.Perm.trans ?_ (List.perm_insertionSort _ _).symm
      exact (hperm.filter _).map _
    exact List.eq_of_perm_of_sorted hpermv (sorted_filter_rowids hsorted v)
      (List.sorted_insertionSort _ _)

/-- Witness for C2 on the spec's scenario 1 input
`(0,10),(1,20),(2,10),(3,10),(4,30)` split into two runs: value 10's posting
is `[0, 2, 3]`. -/
theorem c2_postings_witness :
    (∃ p ∈ ([[⟨10, 0⟩, ⟨20, 1⟩, ⟨10, 2⟩], [⟨10, 3⟩, ⟨30, 4⟩]] :
        List (List RawValue)).flatten, p.value = 10) ∧
    ∃ rows, (10, rows) ∈ groups (mergedOf [[⟨10, 0⟩, ⟨20, 1⟩, ⟨10, 2⟩], [⟨10, 3⟩, ⟨30, 4⟩]]) ∧
      rows = List.insertionSort (· ≤ ·)
        (((([[⟨10, 0⟩, ⟨20, 1⟩, ⟨10, 2⟩], [⟨10, 3⟩, ⟨30, 4⟩]] :
          List (List RawValue)).flatten.filter fun p => p.value = 10)).map RawValue.rowid) :=
  ⟨by decide,
   (c2_postings [[⟨10, 0⟩, ⟨20, 1⟩, ⟨10, 2⟩], [⟨10, 3⟩, ⟨30, 4⟩]]).2.2 10 (by decide)⟩

/-- **C5** (counterexample): the claim that a block flush ends by appending
`rows_packed` with a 32-bit length prefix is false on the code: `FlushBlock`
calls `WriteVector`, which writes only the raw bytes.  At the concrete
one-group block `{5 ↦ rows [3,4]}` with the identity codec, the code's
output differs from the claimed layout. -/
theorem c5_counterexample :
    flushBlockOutBytes id (blockOfGroups [(5, [3, 4])])
      ≠ flushBlockOutBytesClaimed id (blockOfGroups [(5, [3, 4])]) := by
  intro heq
  have h2 := flushBlockOutBytesClaimed_length id (blockOfGroups [(5, [3, 4])]) (by decide)
  rw [← heq] at h2
  omega

/-- **C5** (amended): the last step of a block flush appends the
`rows_packed` byte buffer to the output file *verbatim, with no length
prefix* (`WriteVector` writes only the data); the spec's claimed layout with
a raw 32-bit length prefix would be exactly 4 bytes longer. -/
theorem c5_rows_packed_verbatim (codec : List Nat → List Nat) (b : EncBlock)
    (h : b.values ≠ []) :
    flushBlockOutBytes codec b
      = encodeBlockBytes codec b.values
        ++ encodeBlockWoDeltaBytes codec (packRows codec b).types
        ++ [if (packRows codec b).lenDelta then 1 else 0]
        ++ (if (packRows codec b).lenDelta then encodeBlockBytes codec (packRows codec b).starts
            else encodeBlockWoDeltaBytes codec (packRows codec b).starts)
        ++ (packRows codec b).packed ∧
    (flushBlockOutBytesClaimed codec b).length
      = (flushBlockOutBytes codec b).length + 4 := by
  constructor
  · unfold flushBlockOutBytes
    rw [if_neg h]
  · exact flushBlockOutBytesClaimed_length codec b h

/-- Witness for the amended C5 at the block `{5 ↦ rows [3,4]}`. -/
theorem c5_rows_packed_verbatim_witness :
    (blockOfGroups [(5, [3, 4])]).values ≠ [] ∧
    (flushBlockOutBytesClaimed id (blockOfGroups [(5, [3, 4])])).length
      = (flushBlockOutBytes id (blockOfGroups [(5, [3, 4])])).length + 4 :=
  ⟨by decide, (c5_rows_packed_verbatim id (blockOfGroups [(5, [3, 4])]) (by decide)).2⟩

/-- **C6** (counterexample): the claim that `block_offsets_starts` is
strictly increasing after un-deltaing fails when an attribute produces zero
blocks: with attribute 0 empty (no pairs) and attribute 1 holding one pair,
the recovered starts are `[0, 0]`. -/
theorem c6_counterexample :
    ¬ List.Chain' (· < ·)
      (unDeltas (computeDeltas (blocksOffStarts [[], [[⟨5, 0⟩]]]))) := by
  have h : unDeltas (computeDeltas (blocksOffStarts [[], [[⟨5, 0⟩]]])) = [0, 0] := by
    decide
  rw [h]
  intro hc
  exact absurd (List.chain'_cons.1 hc).1 (by omega)

/-- **C6** (amended): after un-deltaing, the recovered
`block_offsets_starts` sequence is always non-decreasing, and it is strictly
increasing provided every attribute receives at least one pair (hence
flushes at least one block); equality occurs exactly at attributes that
emitted zero blocks. -/
theorem c6_block_offsets_monotone (attrs : List (List (List RawValue))) :
    List.Chain' (· ≤ ·) (unDeltas (computeDeltas (blocksOffStarts attrs))) ∧
    ((∀ a ∈ attrs, a.flatten ≠ []) →
      List.Chain' (· < ·) (unDeltas (computeDeltas (blocksOffStarts attrs)))) := by
  have hle : List.Chain' (· ≤ ·) (blocksOffStarts attrs) :=
    (blocksOffStartsGo_chain_le attrs 0).1
  have hrt := unDeltas_computeDeltas hle
  rw [hrt]
  exact ⟨hle, fun h => blocksOffStartsGo_chain_lt attrs h 0⟩

/-- Witness for the amended C6: two attributes with one pair each have
strictly increasing recovered starts. -/
theorem c6_block_offsets_monotone_witness :
    (∀ a ∈ ([[[⟨5, 0⟩]], [[⟨7, 1⟩]]] : List (List (List RawValue))), a.flatten ≠ []) ∧
    List.Chain' (· < ·)
      (unDeltas (computeDeltas (blocksOffStarts [[[⟨5, 0⟩]], [[⟨7, 1⟩]]]))) :=
  ⟨by decide, (c6_block_offsets_monotone [[[⟨5, 0⟩]], [[⟨7, 1⟩]]]).2 (by decide)⟩

/-- **C7**: for every flushed block the one-byte `rows_delta_on` flag
(`bLenDelta`) is false iff at least one value group in the block received
the `ROW` tag; a group receives the `ROW` tag iff it has exactly one row-id;
and `row_start[]` is encoded with delta + codec when the flag is true and
with the codec alone when it is false. -/
theorem c7_rows_delta_flag (codec : List Nat → List Nat) (gs : List (Nat × List Nat))
    (hne : ∀ g ∈ gs, g.2 ≠ []) :
    ((packRows codec (blockOfGroups gs)).lenDelta = false ↔
      ∃ g ∈ gs, groupTag g.2 = packingROW) ∧
    (∀ g ∈ gs, (groupTag g.2 = packingROW ↔ g.2.length = 1)) ∧
    (gs ≠ [] →
      flushBlockOutBytes codec (blockOfGroups gs)
        = encodeBlockBytes codec (blockOfGroups gs).values
          ++ encodeBlockWoDeltaBytes codec (packRows codec (blockOfGroups gs)).types
          ++ [if (packRows codec (blockOfGroups gs)).lenDelta then 1 else 0]
          ++ (if (packRows codec (blockOfGroups gs)).lenDelta
              then encodeBlockBytes codec (packRows codec (blockOfGroups gs)).starts
              else encodeBlockWoDeltaBytes codec (packRows codec (blockOfGroups gs)).starts)
          ++ (packRows codec (blockOfGroups gs)).packed) := by
  have htag : ∀ g ∈ gs, (groupTag g.2 = packingROW ↔ g.2.length = 1) := by
    intro g hgm
    unfold groupTag packingROW packingROWBLOCK packingROWBLOCKSLIST
    split_ifs with h1 h2
    · simp [h1]
    · simp [h1]
    · simp [h1]
  refine ⟨?_, htag, ?_⟩
  · rw [packRows_spec codec gs hne]
    constructor
    · intro hall
      obtain ⟨g, hgm, hgp⟩ := List.all_eq_false.1 hall
      refine ⟨g, hgm, (htag g hgm).2 ?_⟩
      simpa [bne_iff_ne] using hgp
    · rintro ⟨g, hgm, hgt⟩
      apply List.all_eq_false.2
      exact ⟨g, hgm, by simpa [bne_iff_ne] using (htag g hgm).1 hgt⟩
  · intro hne2
    unfold flushBlockOutBytes
    rw [if_neg (by simp only [blockOfGroups]; simpa using hne2)]

/-- Witness for C7: a block with a singleton group `{10 ↦ [7]}` and a
two-row group `{20 ↦ [1,2]}` has `rows_delta_on = false`. -/
theorem c7_rows_delta_flag_witness :
    (∀ g ∈ ([(10, [7]), (20, [1, 2])] : List (Nat × List Nat)), g.2 ≠ []) ∧
    (packRows id (blockOfGroups [(10, [7]), (20, [1, 2])])).lenDelta = false :=
  ⟨by decide,
   (c7_rows_delta_flag id [(10, [7]), (20, [1, 2])] (by decide)).1.mpr (by decide)⟩

/-- **C3**: at block flush, for every value group with `c` row-ids: if
`c = 1` the group's tag is `ROW` and its `row_start` entry is the row-id
itself (not an offset into `rows_packed`); if `2 ≤ c ≤ 128` the tag is
`ROW_BLOCK` and `row_start` is the offset of one encoded row block in
`rows_packed`; if `c > 128` the tag is `ROW_BLOCKS_LIST` and the payload at
`row_start` is a varint block count followed by `ceil(c/128)` encoded row
blocks, all of 128 row-ids except a possibly shorter last one.
`rows_packed` is the concatenation of the group payloads and each non-empty
payload indeed starts at the group's `row_start` offset. -/
theorem c3_posting_layout (codec : List Nat → List Nat) (gs : List (Nat × List Nat))
    (hne : ∀ g ∈ gs, g.2 ≠ []) (i : Nat) (hi : i < gs.length) :
    (packRows codec (blockOfGroups gs)).packed
        = (gs.map fun g => groupPayload codec g.2).flatten ∧
    (packRows codec (blockOfGroups gs)).types.getD i 0 = groupTag (gs.getD i (0, [])).2 ∧
    ((gs.getD i (0, [])).2.length = 1 →
      groupTag (gs.getD i (0, [])).2 = packingROW ∧
      (packRows codec (blockOfGroups gs)).starts.getD i 0 = (gs.getD i (0, [])).2.headD 0 ∧
      groupPayload codec (gs.getD i (0, [])).2 = []) ∧
    (2 ≤ (gs.getD i (0, [])).2.length → (gs.getD i (0, [])).2.length ≤ 128 →
      groupTag (gs.getD i (0, [])).2 = packingROWBLOCK ∧
      (packRows codec (blockOfGroups gs)).starts.getD i 0
        = (((gs.take i).map fun g => groupPayload codec g.2).flatten).length ∧
      groupPayload codec (gs.getD i (0, [])).2 = encodeRowsBlockBytes codec (gs.getD i (0, [])).2) ∧
    (128 < (gs.getD i (0, [])).2.length →
      groupTag (gs.getD i (0, [])).2 = packingROWBLOCKSLIST ∧
      (packRows codec (blockOfGroups gs)).starts.getD i 0
        = (((gs.take i).map fun g => groupPayload codec g.2).flatten).length ∧
      groupPayload codec (gs.getD i (0, [])).2
        = encodeValue (((gs.getD i (0, [])).2.length + 128 - 1) / 128) ++
          ((List.range (((gs.getD i (0, [])).2.length + 128 - 1) / 128)).map fun b =>
            encodeRowsBlockBytes codec
              (((gs.getD i (0, [])).2.drop (b * 128)).take
                (if b = ((gs.getD i (0, [])).2.length + 128 - 1) / 128 - 1
                 then (gs.getD i (0, [])).2.length - b * 128 else 128))).flatten ∧
      ∀ b, b < ((gs.getD i (0, [])).2.length + 128 - 1) / 128 →
        (((gs.getD i (0, [])).2.drop (b * 128)).take
          (if b = ((gs.getD i (0, [])).2.length + 128 - 1) / 128 - 1
           then (gs.getD i (0, [])).2.length - b * 128 else 128)).length
        = if b = ((gs.getD i (0, [])).2.length + 128 - 1) / 128 - 1
          then (gs.getD i (0, [])).2.length - 128 * (((gs.getD i (0, [])).2.length + 128 - 1) / 128 - 1)
          else 128) ∧
    ((packRows codec (blockOfGroups gs)).packed.drop
        ((packRows codec (blockOfGroups gs)).starts.getD i 0)).take
        (groupPayload codec (gs.getD i (0, [])).2).length
      = groupPayload codec (gs.getD i (0, [])).2 := by
  have hspec := packRows_spec codec gs hne
  have hpacked : (packRows codec (blockOfGroups gs)).packed
      = (gs.map fun g => groupPayload codec g.2).flatten := by
    rw [hspec]
  have htypes : (packRows codec (blockOfGroups gs)).types.getD i 0 = groupTag (gs.getD i (0, [])).2 := by
    rw [hspec]
    exact getD_map_of_lt _ 0 gs i hi
  have hstarts : (packRows codec (blockOfGroups gs)).starts.getD i 0
      = if (gs.getD i (0, [])).2.length = 1 then (gs.getD i (0, [])).2.headD 0
        else (((gs.take i).map fun g => groupPayload codec g.2).flatten).length := by
    rw [hspec]
    have hsg := specStarts_getD codec gs 0 i hi
    by_cases h1 : (gs.getD i (0, [])).2.length = 1
    · rw [if_pos h1]
      rw [hsg, if_pos h1]
    · rw [if_neg h1]
      rw [hsg, if_neg h1, Nat.zero_add]
  refine ⟨hpacked, htypes, ?_, ?_, ?_, ?_⟩
  · intro h1
    refine ⟨?_, ?_, ?_⟩
    · unfold groupTag
      rw [if_pos h1]
    · rw [hstarts, if_pos h1]
    · unfold groupPayload
      rw [if_pos h1]
  · intro h2 h128
    have h1 : ¬ (gs.getD i (0, [])).2.length = 1 := by omega
    refine ⟨?_, ?_, ?_⟩
    · unfold groupTag
      rw [if_neg h1, if_pos (show (gs.getD i (0, [])).2.length ≤ valuesPerBlock from h128)]
    · rw [hstarts, if_neg h1]
    · unfold groupPayload
      rw [if_neg h1, if_pos (show (gs.getD i (0, [])).2.length ≤ valuesPerBlock from h128)]
  · intro hbig
    have h1 : ¬ (gs.getD i (0, [])).2.length = 1 := by omega
    have h2 : ¬ (gs.getD i (0, [])).2.length ≤ valuesPerBlock := by
      unfold valuesPerBlock
      omega
    refine ⟨?_, ?_, ?_, ?_⟩
    · unfold groupTag
      rw [if_neg h1, if_neg h2]
    · rw [hstarts, if_neg h1]
    · simp only [groupPayload, valuesPerBlock]
      rw [if_neg h1, if_neg (show ¬ (gs.getD i (0, [])).2.length ≤ 128 by omega)]
    · intro b hb
      rw [List.length_take, List.length_drop]
      by_cases hlast : b = ((gs.getD i (0, [])).2.length + 128 - 1) / 128 - 1
      · rw [if_pos hlast, if_pos hlast]
        omega
      · rw [if_neg hlast, if_neg hlast]
        omega
  · by_cases h1 : (gs.getD i (0, [])).2.length = 1
    · have hp : groupPayload codec (gs.getD i (0, [])).2 = [] := by
        unfold groupPayload
        rw [if_pos h1]
      rw [hp]
      simp
    · rw [hpacked, hstarts, if_neg h1]
      have hext := flatten_extract (gs.map fun g => groupPayload codec g.2) i
        (by simpa using hi)
      rw [getD_map_of_lt _ [] gs i hi] at hext
      rw [← List.map_take] at hext
      exact hext

set_option maxRecDepth 4000 in
/-- Witness for C3: block `{10 ↦ [7], 20 ↦ [1,2], 30 ↦ 130 rows}`; the
third group (130 row-ids) receives the `ROW_BLOCKS_LIST` tag. -/
theorem c3_posting_layout_witness :
    (packRows id (blockOfGroups
        [(10, [7]), (20, [1, 2]), (30, List.range 130)])).types.getD 2 0
      = packingROWBLOCKSLIST := by
  have h := (c3_posting_layout id [(10, [7]), (20, [1, 2]), (30, List.range 130)]
    (by decide) 2 (by decide)).2.1
  rw [h]
  decide

end Columnar
